import Mathlib

/-! Priority queues: the binary min-heap `MinHeap` and the d-ary min-heap `MinDHeap`.

A shallow embedding of `data-struct/priority-queues/minHeap.go` and
`data-struct/priority-queues/minDHeap.go` (the file `minHeap.go` at the top of the
repository is the same binary heap with unexported names).

Conventions of the embedding.

* A Go `*Node` is a `Node` record: the address of the pointee together with the two
  fields of the pointee.  The heaps never write to a node, so the fields travel with the
  address.  Pointer comparison `p == q` is comparison of the addresses.  A nil pointer is
  not a `Node`.
* A Go slice `[]*Node` is a `List Node`; its capacity is not modelled.
* Go `int` is 64 bits wide.  The index arithmetic of the d-ary heap (`getChildrenIndices`,
  `parent`) and the conversions of the degree in `New` are modelled with their wrap-around
  and rounding.  Indices that address a slot of a slice, `size` and `Size` are natural
  numbers; the place where the Go code subtracts below zero on them (`m.size - 1` at size
  zero) is written out in the definitions concerned.  A slice has far fewer than `2^62`
  slots, so the binary heap computes the children `2*idx + 1`, `2*idx + 2` of a slot without
  wrap-around, and they are written on natural numbers.
* A method with receiver `m` becomes a function from the receiver state to an `Outcome`:
  either it returns (`done`, with the return value and the new receiver state), or the Go
  runtime raises `index out of range` (`indexPanic`, with the receiver state at that moment).
  Loops are unrolled with a fuel argument; `outOfFuel` marks an exhausted unrolling.
-/

namespace Heap

/-! ## Nodes and outcomes -/

/-- Pointer to a Go `Node struct { Weight, Value int }`: address and pointee fields. -/
structure Node where
  addr : Nat
  Weight : Int
  Value : Int
  deriving DecidableEq, Repr

/-- Result of running a method on a receiver of type `σ`. -/
inductive Outcome (σ α : Type) where
  | done (ret : α) (st : σ)
  | indexPanic (st : σ)
  | outOfFuel
  deriving DecidableEq, Repr

/-- Sequencing: run `k` on the return value and state of a call that returned. -/
def Outcome.andThen {σ α β : Type} (o : Outcome σ α) (k : α → σ → Outcome σ β) :
    Outcome σ β :=
  match o with
  | .done a st => k a st
  | .indexPanic st => .indexPanic st
  | .outOfFuel => .outOfFuel

/-- Go `func (a *Node) Compare(b *Node) int`. -/
def Node.Compare (a b : Node) : Int :=
  if a.Weight < b.Weight then -1
  else if a.Weight = b.Weight then 0
  else 1

/-- Go `NewNode(Value, Weight)`; the address of the fresh allocation is a parameter. -/
def NewNode (addr : Nat) (Value Weight : Int) : Node :=
  { addr := addr, Weight := Weight, Value := Value }

/-! ## The d-ary heap of `minDHeap.go` -/

/-- Two's-complement wrap of an integer into the 64-bit Go `int`. -/
def wrapInt (x : Int) : Int :=
  (x + 9223372036854775808) % 18446744073709551616 - 9223372036854775808

/-- Go `xs[i]` for an `int` index; `none` stands for index out of range. -/
def slotAt (xs : List Node) (i : Int) : Option Node :=
  if i < 0 then none else xs[i.toNat]?

/-- Go `type MinDHeap struct { heap []*Node; size, deg int }`. -/
structure MinDHeap where
  heap : List Node
  size : Nat
  deg : Int
  deriving DecidableEq, Repr

namespace MinDHeap

/-- Go `Size`. -/
def Size (m : MinDHeap) : Nat := m.size

/-- Go `IsEmpty`. -/
def IsEmpty (m : MinDHeap) : Bool := m.size == 0

/-- Go `parent`: `(idx - 1) / 2` on `int`, division truncating toward zero.  The subtraction
can leave the `int` range only downward (at the least `int`), where it wraps. -/
def parent (_m : MinDHeap) (idx : Int) : Int :=
  let d := idx - 1
  Int.tdiv (if d < -9223372036854775808 then d + 18446744073709551616 else d) 2

/-- Go `swap`: both elements are read, then both are written. -/
def swap (m : MinDHeap) (idx1 idx2 : Nat) : Outcome MinDHeap Unit :=
  match m.heap[idx2]?, m.heap[idx1]? with
  | some b, some a => .done () { m with heap := (m.heap.set idx1 b).set idx2 a }
  | _, _ => .indexPanic m

/-- Go `getChildrenIndices`: `idx*deg + i` for `i = 1 .. deg`, computed on `int`: the value
wraps around (wrapping after the product and again after the sum gives the same `int`).
No index is listed when `deg` is zero or negative. -/
def getChildrenIndices (m : MinDHeap) (idx : Int) : List Int :=
  (List.range m.deg.toNat).map (fun (i : Nat) => wrapInt (idx * m.deg + ((i : Int) + 1)))

/-- Go `find`: index of the first node whose `Value` is `elm`. -/
def find (m : MinDHeap) (elm : Int) : Option Nat :=
  let i := m.heap.findIdx (fun v => v.Value == elm)
  if i < m.heap.length then some i else none

/-- Go `Contains`. -/
def Contains (m : MinDHeap) (elm : Int) : Bool :=
  (m.find elm).isSome

/-- Go `Peek`: `m.heap[0]`. -/
def Peek (m : MinDHeap) : Outcome MinDHeap Node :=
  match m.heap[0]? with
  | some n => .done n m
  | none => .indexPanic m

/-- The loop of Go `Swim`.  The flag `elementLessThanParent` is a loop constant: the source
computes it once, before the loop. -/
def swimLoop : Nat → Bool → MinDHeap → Nat → Nat → Outcome MinDHeap Unit
  | 0, _, _, _, _ => .outOfFuel
  | fuel + 1, elementLessThanParent, m, idx, parentIdx =>
    if decide (idx > 0) && elementLessThanParent then
      (m.swap idx parentIdx).andThen fun _ m1 =>
        swimLoop fuel elementLessThanParent m1 parentIdx (m1.parent parentIdx).toNat
    else .done () m

/-- Go `Swim`.  The index is one of a slot, so its parent `(idx - 1) / 2` is not negative. -/
def Swim (m : MinDHeap) (idx : Nat) : Outcome MinDHeap Unit :=
  let parentIdx := (m.parent idx).toNat
  match m.heap[idx]?, m.heap[parentIdx]? with
  | some e, some p =>
    let elementLessThanParent := decide (e.Compare p = -1)
    swimLoop (idx + 1) elementLessThanParent m idx parentIdx
  | _, _ => .indexPanic m

/-- The inner `for _, childIdx := range childrenIdxs` loop of Go `Sink`: the final
`smallestIdx`, or `none` when one of the two slice reads is out of range.  Both reads are
made for every child, whatever `childIdxInBounds` is. -/
def pickSmallest (m : MinDHeap) : List Int → Int → Option Int
  | [], smallestIdx => some smallestIdx
  | childIdx :: rest, smallestIdx =>
    let childIdxInBounds := decide (childIdx < (m.Size : Int))
    match slotAt m.heap childIdx, slotAt m.heap smallestIdx with
    | some c, some s =>
      let childIdxLessThanSmallest := decide (c.Compare s = -1)
      pickSmallest m rest
        (if childIdxInBounds && childIdxLessThanSmallest then childIdx else smallestIdx)
    | _, _ => none

/-- The outer `for` loop of Go `Sink`. -/
def sinkLoop : Nat → MinDHeap → Nat → Outcome MinDHeap Unit
  | 0, _, _ => .outOfFuel
  | fuel + 1, m, idx =>
    let childrenIdxs := m.getChildrenIndices idx
    match childrenIdxs[0]? with
    | none => .indexPanic m
    | some first =>
      match m.pickSmallest childrenIdxs first with
      | none => .indexPanic m
      | some smallestIdx =>
        let indexOutOfBounds := decide (smallestIdx ≥ (m.Size : Int))
        match m.heap[idx]?, slotAt m.heap smallestIdx with
        | some e, some s =>
          let elementLessThanChild := decide (e.Compare s = -1)
          if indexOutOfBounds || elementLessThanChild then .done () m
          else
            -- `heap[smallestIdx]` has just been read, so `smallestIdx` is the index of a slot
            (m.swap smallestIdx.toNat idx).andThen fun _ m1 =>
              sinkLoop fuel m1 smallestIdx.toNat
        | _, _ => .indexPanic m

/-- Go `Sink`.  As long as the child indices do not wrap around, every pass that does not
return or fail moves `idx` to a larger index inside the slice, so `len(heap) + 1` passes are
enough. -/
def Sink (m : MinDHeap) (idx : Nat) : Outcome MinDHeap Unit :=
  sinkLoop (m.heap.length + 1) m idx

/-- Go `Insert`. -/
def Insert (m : MinDHeap) (n : Node) : Outcome MinDHeap Unit :=
  let m1 := { m with heap := m.heap ++ [n] }
  let m2 := { m1 with size := m1.size + 1 }
  let idxLastElement := m2.size - 1
  m2.Swim idxLastElement

/-- Go `Heapify` of the d-ary heap: insert the elements one by one. -/
def Heapify (m : MinDHeap) : List Node → Outcome MinDHeap Unit
  | [] => .done () m
  | a :: arr => (m.Insert a).andThen fun _ m1 => Heapify m1 arr

/-- Go `RemoveAt`. -/
def RemoveAt (m : MinDHeap) (idxToRemove : Nat) : Outcome MinDHeap Node :=
  match m.heap[idxToRemove]? with
  | none => .indexPanic m
  | some removedElement =>
    match m.size with
    | 0 => .indexPanic m -- `idxLastElement` is -1 and `swap` reads `m.heap[-1]`
    | idxLastElement + 1 =>
      (m.swap idxToRemove idxLastElement).andThen fun _ m1 =>
        -- `m.heap[:m.size-1]` is in range: `swap` has just read index `m.size - 1`
        let m2 := { m1 with heap := m1.heap.take (m1.size - 1) }
        let m3 := { m2 with size := m2.size - 1 }
        let lastElementIsToRemove := decide (idxToRemove = idxLastElement)
        if lastElementIsToRemove then .done removedElement m3
        else
          let idxToBeHeapified := idxToRemove
          match m3.heap[idxToBeHeapified]? with
          | none => .indexPanic m3
          | some elementToBeHeapified =>
            (m3.Sink idxToBeHeapified).andThen fun _ m4 =>
              match m4.heap[idxToBeHeapified]? with
              | none => .indexPanic m4
              | some cur =>
                if cur.addr = elementToBeHeapified.addr then
                  (m4.Swim idxToBeHeapified).andThen fun _ m5 => .done removedElement m5
                else .done removedElement m4

/-- Go `Poll`: `(nil, true)` on the empty heap, `(RemoveAt(0), false)` otherwise. -/
def Poll (m : MinDHeap) : Outcome MinDHeap (Option Node × Bool) :=
  if m.size = 0 then .done (none, true) m
  else (m.RemoveAt 0).andThen fun n m1 => .done (some n, false) m1

end MinDHeap

/-- How many low bits the conversion to `float64` drops from a natural number: the number
of halvings that bring it below `2^53`. -/
def float64DroppedBits : Nat → Nat → Nat
  | 0, _ => 0
  | fuel + 1, n => if n < 9007199254740992 then 0 else float64DroppedBits fuel (n / 2) + 1

/-- The value of Go `float64(n)` for a natural number `n` of at most 64 bits: `n` rounded to
a 53-bit significand, to nearest and ties to even.  The value is again a natural number. -/
def float64OfNat (n : Nat) : Nat :=
  let e := float64DroppedBits 64 n
  let q := 2 ^ e
  let m := n / q
  let r := n % q
  let roundUp := decide (2 * r > q) || (decide (2 * r = q) && decide (m % 2 = 1))
  (if roundUp then m + 1 else m) * q

/-- The value of Go `float64(n)` for an `int`. -/
def float64OfInt (n : Int) : Int :=
  if n < 0 then -((float64OfNat n.natAbs : Nat) : Int) else ((float64OfNat n.natAbs : Nat) : Int)

/-- Go `int(f)` for an integral `float64` value `f`: the value itself when it is an `int`.
A value of `2^63` or more is outside the `int` range; Go leaves the result to the
implementation, and amd64 yields the least `int`, which is what is modelled. -/
def intOfFloat64 (f : Int) : Int :=
  if f < 9223372036854775808 then f else -9223372036854775808

/-- Go `New(degree, elems...)`: `deg = int(math.Max(2, float64(degree)))`. -/
def New (degree : Int) (elems : List Node) : Outcome MinDHeap Unit :=
  let mh : MinDHeap :=
    { heap := [], size := 0, deg := intOfFloat64 (max 2 (float64OfInt degree)) }
  if elems.length > 0 then mh.Heapify elems else .done () mh

/-! ## The binary heap of `minHeap.go` -/

/-- Go `type MinHeap struct { Heap []*Node; Size int }`. -/
structure MinHeap where
  Heap : List Node
  Size : Nat
  deriving DecidableEq, Repr

namespace MinHeap

/-- Go `Parent`: `(idx - 1) / 2` on `int`, division truncating toward zero. -/
def Parent (_m : MinHeap) (idx : Nat) : Nat :=
  (Int.tdiv ((idx : Int) - 1) 2).toNat

/-- Go `Left`. -/
def Left (_m : MinHeap) (idx : Nat) : Nat := idx * 2 + 1

/-- Go `Right`. -/
def Right (_m : MinHeap) (idx : Nat) : Nat := idx * 2 + 2

/-- Go `Swap`: both elements are read, then both are written. -/
def Swap (m : MinHeap) (idx1 idx2 : Nat) : Outcome MinHeap Unit :=
  match m.Heap[idx2]?, m.Heap[idx1]? with
  | some b, some a => .done () { m with Heap := (m.Heap.set idx1 b).set idx2 a }
  | _, _ => .indexPanic m

/-- Go `find`. -/
def find (m : MinHeap) (elm : Int) : Option Nat :=
  let i := m.Heap.findIdx (fun v => v.Value == elm)
  if i < m.Heap.length then some i else none

/-- Go `Contains`. -/
def Contains (m : MinHeap) (elm : Int) : Bool :=
  (m.find elm).isSome

/-- Go `Peek`: `m.Heap[0]`. -/
def Peek (m : MinHeap) : Outcome MinHeap Node :=
  match m.Heap[0]? with
  | some n => .done n m
  | none => .indexPanic m

/-- The expression `Right < len(m.Heap) && m.Heap[Right].Compare(m.Heap[Left]) == -1` of Go
`Sink`; the right operand of `&&` is evaluated only when the left one is true.  `none` is an
out-of-range read. -/
def rightLessThanLeft (m : MinHeap) (Left Right : Nat) : Option Bool :=
  if Right < m.Heap.length then
    match m.Heap[Right]?, m.Heap[Left]? with
    | some r, some l => some (decide (r.Compare l = -1))
    | _, _ => none
  else some false

/-- The `for` loop of Go `Sink`. -/
def sinkLoop : Nat → MinHeap → Nat → Outcome MinHeap Unit
  | 0, _, _ => .outOfFuel
  | fuel + 1, m, idx =>
    let Left := m.Left idx
    let Right := m.Right idx
    if Right > m.Heap.length then .done () m
    else
      match m.rightLessThanLeft Left Right with
      | none => .indexPanic m
      | some rightLess =>
        let smallestIndex := if rightLess then Right else Left
        let indexOutOfBounds := decide (Left ≥ m.Heap.length)
        match m.Heap[idx]?, m.Heap[smallestIndex]? with
        | some e, some s =>
          let elementLessThanSmallest := decide (e.Compare s = -1)
          if indexOutOfBounds || elementLessThanSmallest then .done () m
          else (m.Swap smallestIndex idx).andThen fun _ m1 => sinkLoop fuel m1 smallestIndex
        | _, _ => .indexPanic m

/-- Go `Sink`.  Every pass that does not return moves `idx` to a child inside the slice, so
`len(Heap) + 1` passes are enough. -/
def Sink (m : MinHeap) (idx : Nat) : Outcome MinHeap Unit :=
  sinkLoop (m.Heap.length + 1) m idx

/-- The loop `for ; i >= 0; i-- { m.Sink(int(i)) }` of Go `Heapify`, started at `i`. -/
def heapifyLoop : Nat → MinHeap → Outcome MinHeap Unit
  | 0, m => m.Sink 0
  | i + 1, m => (m.Sink (i + 1)).andThen fun _ m1 => heapifyLoop i m1

/-- Go `Heapify`: `i := math.Max(0, math.Floor(float64(len(arr) / 2)) - 1)`, then sink the
indices `i, i-1, .., 0`, then set `Size`.  Half the length of a slice is far below `2^53`,
where `float64(..)` is exact, so the float arithmetic is written on integers. -/
def Heapify (m : MinHeap) (arr : List Node) : Outcome MinHeap Unit :=
  let m1 := { m with Heap := arr }
  let i : Nat := (max 0 ((((arr.length / 2 : Nat)) : Int) - 1)).toNat
  (heapifyLoop i m1).andThen fun _ m2 => .done () { m2 with Size := arr.length }

/-- The loop of Go `Swim`.  The flag `elementLessThanParent` is a loop constant: the source
computes it once, before the loop. -/
def swimLoop : Nat → Bool → MinHeap → Nat → Nat → Outcome MinHeap Unit
  | 0, _, _, _, _ => .outOfFuel
  | fuel + 1, elementLessThanParent, m, idx, Parent =>
    if decide (idx > 0) && elementLessThanParent then
      (m.Swap idx Parent).andThen fun _ m1 =>
        swimLoop fuel elementLessThanParent m1 Parent (m1.Parent Parent)
    else .done () m

/-- Go `Swim`. -/
def Swim (m : MinHeap) (idx : Nat) : Outcome MinHeap Unit :=
  let Parent := m.Parent idx
  match m.Heap[idx]?, m.Heap[Parent]? with
  | some e, some p =>
    let elementLessThanParent := decide (e.Compare p = -1)
    swimLoop (idx + 1) elementLessThanParent m idx Parent
  | _, _ => .indexPanic m

/-- Go `Insert`: append, swim the last index of the slice, then `Size++`. -/
def Insert (m : MinHeap) (n : Node) : Outcome MinHeap Unit :=
  let m1 := { m with Heap := m.Heap ++ [n] }
  let idxLastElement := m1.Heap.length - 1
  (m1.Swim idxLastElement).andThen fun _ m2 => .done () { m2 with Size := m2.Size + 1 }

/-- Go `RemoveAt`. -/
def RemoveAt (m : MinHeap) (idx : Nat) : Outcome MinHeap Node :=
  match m.Heap[idx]? with
  | none => .indexPanic m
  | some removedElement =>
    match m.Size with
    | 0 => .indexPanic m -- `idxLastElement` is -1 and `Swap` reads `m.Heap[-1]`
    | idxLastElement + 1 =>
      (m.Swap idx idxLastElement).andThen fun _ m1 =>
        -- `m.Heap[:m.Size-1]` is in range: `Swap` has just read index `m.Size - 1`
        let m2 := { m1 with Heap := m1.Heap.take (m1.Size - 1) }
        let m3 := { m2 with Size := m2.Size - 1 }
        let lastElementIsToRemove := decide (idx = idxLastElement)
        if lastElementIsToRemove then .done removedElement m3
        else
          let idxToBeHeapified := idx
          match m3.Heap[idxToBeHeapified]? with
          | none => .indexPanic m3
          | some elementToBeHeapified =>
            (m3.Sink idxToBeHeapified).andThen fun _ m4 =>
              match m4.Heap[idxToBeHeapified]? with
              | none => .indexPanic m4
              | some cur =>
                if cur.addr = elementToBeHeapified.addr then
                  (m4.Swim idxToBeHeapified).andThen fun _ m5 => .done removedElement m5
                else .done removedElement m4

/-- Go `Poll`: `(nil, true)` on the empty heap, `(RemoveAt(0), false)` otherwise. -/
def Poll (m : MinHeap) : Outcome MinHeap (Option Node × Bool) :=
  if m.Size = 0 then .done (none, true) m
  else (m.RemoveAt 0).andThen fun n m1 => .done (some n, false) m1

end MinHeap

/-- Go `NewMinHeap(elems...)`. -/
def NewMinHeap (elems : List Node) : Outcome MinHeap Unit :=
  let mh : MinHeap := { Heap := [], Size := 0 }
  if elems.length > 0 then mh.Heapify elems else .done () mh

/-! ## Drivers used by the properties: repeated calls -/

/-- Call `Poll()` `n` times on the d-ary heap and collect the returned pairs in order. -/
def MinDHeap.pollN : Nat → MinDHeap → Outcome MinDHeap (List (Option Node × Bool))
  | 0, m => .done [] m
  | n + 1, m =>
    m.Poll.andThen fun r m1 => (pollN n m1).andThen fun rs m2 => .done (r :: rs) m2

/-- Call `Poll()` `n` times on the binary heap and collect the returned pairs in order. -/
def MinHeap.pollN : Nat → MinHeap → Outcome MinHeap (List (Option Node × Bool))
  | 0, m => .done [] m
  | n + 1, m =>
    m.Poll.andThen fun r m1 => (pollN n m1).andThen fun rs m2 => .done (r :: rs) m2

/-- Insert the nodes of `elems` one by one, in order. -/
def MinDHeap.insertAll (m : MinDHeap) : List Node → Outcome MinDHeap Unit
  | [] => .done () m
  | n :: elems => (m.Insert n).andThen fun _ m1 => insertAll m1 elems

/-- Round trip on the d-ary heap: `New(d)`, insert every node of `elems`, then call `Poll()`
`len(elems)` times. -/
def MinDHeap.roundTrip (d : Int) (elems : List Node) :
    Outcome MinDHeap (List (Option Node × Bool)) :=
  (New d []).andThen fun _ m =>
    (m.insertAll elems).andThen fun _ m1 => m1.pollN elems.length

/-- Run `Heapify(arr)` on the binary heap `m`, then call `Poll()` `n` times. -/
def MinHeap.heapifyThenPoll (m : MinHeap) (arr : List Node) (n : Nat) :
    Outcome MinHeap (List (Option Node × Bool)) :=
  (m.Heapify arr).andThen fun _ m1 => m1.pollN n

/-- The indices `idx, parent(idx), .., 0` visited by `Swim` when it moves a node to the
root, with `parent(i) = (i - 1) / 2`; `fuel` bounds the length of the list. -/
def pathUp : Nat → Nat → List Nat
  | 0, _ => []
  | fuel + 1, idx => if idx = 0 then [0] else idx :: pathUp fuel ((idx - 1) / 2)

/-- The path `idx, parent(idx), .., 0` from an index to the root. -/
def pathToRoot (idx : Nat) : List Nat := pathUp (idx + 1) idx

/-! ## The heap property -/

/-- Comparison of two slots by weight; a slot outside the slice constrains nothing. -/
def weightLE : Option Node → Option Node → Prop
  | some a, some b => a.Weight ≤ b.Weight
  | _, _ => True

instance weightLE.instDecidable : (a b : Option Node) → Decidable (weightLE a b)
  | some a, some b => inferInstanceAs (Decidable (a.Weight ≤ b.Weight))
  | some _, none => isTrue trivial
  | none, _ => isTrue trivial

/-- The d-ary heap property of a slice: every live index `i` weighs at most each of its
in-bounds children `i*d + k`, `k = 1 .. d`. -/
def dHeapProp (d : Nat) (xs : List Node) : Prop :=
  ∀ i, i < xs.length → ∀ k, k < d → weightLE xs[i]? xs[i * d + (k + 1)]?

instance dHeapProp.instDecidable (d : Nat) (xs : List Node) : Decidable (dHeapProp d xs) :=
  inferInstanceAs (Decidable (∀ i, i < xs.length → ∀ k, k < d → weightLE xs[i]? xs[i * d + (k + 1)]?))

/-- The binary min-heap property of a slice: `Heap[i].Weight <= Heap[2i+1].Weight` and
`Heap[i].Weight <= Heap[2i+2].Weight` whenever the child index is inside the slice. -/
def isMinHeap (xs : List Node) : Prop :=
  ∀ i, i < xs.length → weightLE xs[i]? xs[2 * i + 1]? ∧ weightLE xs[i]? xs[2 * i + 2]?

instance isMinHeap.instDecidable (xs : List Node) : Decidable (isMinHeap xs) :=
  inferInstanceAs (Decidable (∀ i, i < xs.length →
    weightLE xs[i]? xs[2 * i + 1]? ∧ weightLE xs[i]? xs[2 * i + 2]?))

/-- The node `n` has the least weight among the nodes of `xs`. -/
def isMinWeightOf (n : Node) (xs : List Node) : Prop :=
  n ∈ xs ∧ ∀ x ∈ xs, n.Weight ≤ x.Weight

/-- Nodes built from a list of weights, `Value` equal to `Weight`, at addresses `0, 1, ..`
(the shape of the literals in the tests and in `main`). -/
def nodesOfWeights (ws : List Int) : List Node :=
  ws.enum.map fun p => NewNode p.1 p.2 p.2

/-- Nodes given by (address, weight) pairs, `Value` equal to `Weight`. -/
def nodesAt (ps : List (Nat × Int)) : List Node :=
  ps.map fun p => NewNode p.1 p.2 p.2

/-- The ten weights of the scenario in the tests. -/
def scenarioWeights : List Int := [10, 20, 30, 5, 7, 9, 11, 13, 15, 17]

/-! ## Invariants of the sink loop -/

/-- Every index from `lo` on weighs at most each of its two children. -/
def HeapFrom (lo : Nat) (xs : List Node) : Prop :=
  ∀ j, lo ≤ j → weightLE xs[j]? xs[2 * j + 1]? ∧ weightLE xs[j]? xs[2 * j + 2]?

/-- Loop invariant of `Sink` at `idx`: every index from `lo` on other than `idx` weighs at
most its children, and the parent of `idx`, when it is `lo` or later, weighs at most the
children of `idx`. -/
def SinkInv (lo : Nat) (xs : List Node) (idx : Nat) : Prop :=
  (∀ j, lo ≤ j → j ≠ idx → weightLE xs[j]? xs[2 * j + 1]? ∧ weightLE xs[j]? xs[2 * j + 2]?) ∧
  (∀ p, lo ≤ p → (idx = 2 * p + 1 ∨ idx = 2 * p + 2) →
    weightLE xs[p]? xs[2 * idx + 1]? ∧ weightLE xs[p]? xs[2 * idx + 2]?)

/-! ## Auxiliary facts -/

theorem Node.Compare_eq_neg_one (a b : Node) : a.Compare b = -1 ↔ a.Weight < b.Weight := by
  unfold Node.Compare
  split
  · simp [*]
  · split <;> simp [*]

theorem weightLE_none_right (a : Option Node) : weightLE a none := by
  cases a <;> trivial

/-- The binary min-heap property, spelled out on the nodes: whenever index `i` and one of
its children `2i+1`, `2i+2` are inside the slice, the node at `i` weighs at most the child. -/
theorem isMinHeap_iff (xs : List Node) :
    isMinHeap xs ↔ ∀ (i : Nat) (a b : Node), xs[i]? = some a →
      (xs[2 * i + 1]? = some b ∨ xs[2 * i + 2]? = some b) → a.Weight ≤ b.Weight := by
  constructor
  · intro h i a b ha hb
    have hi : i < xs.length := by
      rcases List.getElem?_eq_some_iff.1 ha with ⟨h, _⟩; exact h
    have hh := h i hi
    rw [ha] at hh
    rcases hb with hb | hb
    · rw [hb] at hh; exact hh.1
    · rw [hb] at hh; exact hh.2
  · intro h i hi
    obtain ⟨a, ha⟩ : ∃ a, xs[i]? = some a := ⟨_, List.getElem?_eq_getElem hi⟩
    rw [ha]
    constructor
    · cases hb : xs[2 * i + 1]? with
      | none => trivial
      | some b => exact h i a b ha (Or.inl hb)
    · cases hb : xs[2 * i + 2]? with
      | none => trivial
      | some b => exact h i a b ha (Or.inr hb)

/-- The d-ary heap property, spelled out on the nodes: whenever index `i` and its child
`i*d + k`, `1 <= k <= d`, are inside the slice, the node at `i` weighs at most the child. -/
theorem dHeapProp_iff (d : Nat) (xs : List Node) :
    dHeapProp d xs ↔ ∀ (i k : Nat) (a b : Node), 1 ≤ k → k ≤ d → xs[i]? = some a →
      xs[i * d + k]? = some b → a.Weight ≤ b.Weight := by
  constructor
  · intro h i k a b hk1 hkd ha hb
    have hi : i < xs.length := by
      rcases List.getElem?_eq_some_iff.1 ha with ⟨h, _⟩; exact h
    have hh := h i hi (k - 1) (by omega)
    have hk : k - 1 + 1 = k := by omega
    rw [hk, ha, hb] at hh
    exact hh
  · intro h i hi k hk
    obtain ⟨a, ha⟩ : ∃ a, xs[i]? = some a := ⟨_, List.getElem?_eq_getElem hi⟩
    rw [ha]
    cases hb : xs[i * d + (k + 1)]? with
    | none => trivial
    | some b => exact h i (k + 1) a b (by omega) (by omega) ha hb

/-- Writing `a` over a slot that holds `b` and putting `b` in front permutes `a :: t`. -/
theorem cons_set_perm (a b : Node) : ∀ (t : List Node) (j : Nat), t[j]? = some b →
    (b :: t.set j a).Perm (a :: t)
  | [], _, h => by simp at h
  | c :: t, 0, h => by
    simp at h
    subst h
    exact List.Perm.swap a c t
  | c :: t, j + 1, h => by
    simp at h
    have ih := cons_set_perm a b t j h
    calc (b :: (c :: t).set (j + 1) a).Perm (c :: b :: t.set j a) := by
          simpa using List.Perm.swap c b (t.set j a)
      _ |>.Perm (c :: a :: t) := ih.cons c
      _ |>.Perm (a :: c :: t) := List.Perm.swap a c t

/-- Exchanging two slots of a slice permutes it. -/
theorem swap_perm (a b : Node) : ∀ (xs : List Node) (i j : Nat),
    xs[i]? = some a → xs[j]? = some b → ((xs.set i b).set j a).Perm xs
  | [], _, _, h, _ => by simp at h
  | c :: t, 0, 0, hi, hj => by
    simp at hi hj
    subst hi
    simp
  | c :: t, 0, j + 1, hi, hj => by
    simp at hi hj
    subst hi
    simpa using cons_set_perm c b t j hj
  | c :: t, i + 1, 0, hi, hj => by
    simp at hi hj
    subst hj
    simpa using cons_set_perm c a t i hi
  | c :: t, i + 1, j + 1, hi, hj => by
    simp at hi hj
    simpa using (swap_perm a b t i j hi hj).cons c

/-- Reading a slice after two slots were exchanged. -/
theorem getElem?_swap (xs : List Node) (i j k : Nat) (a b : Node)
    (hi : xs[i]? = some a) (hj : xs[j]? = some b) :
    ((xs.set i b).set j a)[k]? = if k = j then some a else if k = i then some b else xs[k]? := by
  have hil : i < xs.length := by
    rcases List.getElem?_eq_some_iff.1 hi with ⟨h, _⟩; exact h
  have hjl : j < xs.length := by
    rcases List.getElem?_eq_some_iff.1 hj with ⟨h, _⟩; exact h
  by_cases hkj : k = j
  · subst hkj
    simp [hjl]
  · by_cases hki : k = i
    · subst hki
      simp [hkj, List.getElem?_set_ne (Ne.symm hkj), hil]
    · simp [hkj, hki, List.getElem?_set_ne (Ne.symm hkj), List.getElem?_set_ne (Ne.symm hki)]

/-! ## `MinHeap.Sink` restores the heap property below an index -/

theorem isMinHeap_iff_HeapFrom (xs : List Node) : isMinHeap xs ↔ HeapFrom 0 xs := by
  constructor
  · intro h j _
    by_cases hj : j < xs.length
    · exact h j hj
    · have : xs[j]? = none := List.getElem?_eq_none (by omega)
      rw [this]
      exact ⟨trivial, trivial⟩
  · intro h i _
    exact h i (Nat.zero_le i)

/-- One pass of the loop of `MinHeap.Sink` at an index that has a left child: the pass picks
a lightest child `s`; it returns when the element is strictly lighter than that child and
otherwise exchanges the two and goes on at `s`. -/
theorem MinHeap.sinkLoop_step (fuel : Nat) (xs : List Node) (sz idx : Nat)
    (hR : 2 * idx + 2 ≤ xs.length) :
    ∃ s sm e, (s = 2 * idx + 1 ∨ s = 2 * idx + 2) ∧ xs[s]? = some sm ∧ xs[idx]? = some e ∧
      weightLE (some sm) xs[2 * idx + 1]? ∧ weightLE (some sm) xs[2 * idx + 2]? ∧
      MinHeap.sinkLoop (fuel + 1) ⟨xs, sz⟩ idx =
        if e.Weight < sm.Weight then .done () ⟨xs, sz⟩
        else MinHeap.sinkLoop fuel ⟨(xs.set s e).set idx sm, sz⟩ s := by
  have hcomm : idx * 2 = 2 * idx := Nat.mul_comm _ _
  have hLlt : 2 * idx + 1 < xs.length := by omega
  have hIlt : idx < xs.length := by omega
  obtain ⟨l, hl⟩ : ∃ l, xs[2 * idx + 1]? = some l := ⟨_, List.getElem?_eq_getElem hLlt⟩
  obtain ⟨e, he⟩ : ∃ e, xs[idx]? = some e := ⟨_, List.getElem?_eq_getElem hIlt⟩
  have hnot : ¬ (2 * idx + 2 > xs.length) := by omega
  have hnotL : ¬ (xs.length ≤ 2 * idx + 1) := by omega
  by_cases hRlt : 2 * idx + 2 < xs.length
  · obtain ⟨r, hr⟩ : ∃ r, xs[2 * idx + 2]? = some r := ⟨_, List.getElem?_eq_getElem hRlt⟩
    by_cases hrl : r.Weight < l.Weight
    · refine ⟨2 * idx + 2, r, e, Or.inr rfl, hr, he, ?_, ?_, ?_⟩
      · rw [hl]; exact Int.le_of_lt hrl
      · rw [hr]; exact Int.le_refl _
      · simp [MinHeap.sinkLoop, MinHeap.Left, MinHeap.Right, MinHeap.rightLessThanLeft,
          MinHeap.Swap, Outcome.andThen, hcomm, hnot, hRlt, hl, hr, he, hrl, hnotL,
          Node.Compare_eq_neg_one]
    · refine ⟨2 * idx + 1, l, e, Or.inl rfl, hl, he, ?_, ?_, ?_⟩
      · rw [hl]; exact Int.le_refl _
      · rw [hr]; exact Int.not_lt.1 hrl
      · simp [MinHeap.sinkLoop, MinHeap.Left, MinHeap.Right, MinHeap.rightLessThanLeft,
          MinHeap.Swap, Outcome.andThen, hcomm, hnot, hRlt, hl, hr, he, hrl, hnotL,
          Node.Compare_eq_neg_one]
  · have hr : xs[2 * idx + 2]? = none := List.getElem?_eq_none (by omega)
    refine ⟨2 * idx + 1, l, e, Or.inl rfl, hl, he, ?_, ?_, ?_⟩
    · rw [hl]; exact Int.le_refl _
    · rw [hr]; trivial
    · simp [MinHeap.sinkLoop, MinHeap.Left, MinHeap.Right, MinHeap.rightLessThanLeft,
        MinHeap.Swap, Outcome.andThen, hcomm, hnot, hRlt, hl, he, hnotL,
        Node.Compare_eq_neg_one]

theorem weightLE_of_le_left {a b : Node} {o : Option Node} (hab : a.Weight ≤ b.Weight)
    (h : weightLE (some b) o) : weightLE (some a) o := by
  cases o with
  | none => trivial
  | some c => exact Int.le_trans hab h

/-- After the exchange of `idx` with its lightest child `s` the invariant holds at `s`. -/
theorem SinkInv_swap (lo : Nat) (xs : List Node) (idx s : Nat) (sm e : Node)
    (hlo : lo ≤ idx) (hs : s = 2 * idx + 1 ∨ s = 2 * idx + 2)
    (hsm : xs[s]? = some sm) (he : xs[idx]? = some e)
    (hle1 : weightLE (some sm) xs[2 * idx + 1]?) (hle2 : weightLE (some sm) xs[2 * idx + 2]?)
    (hge : sm.Weight ≤ e.Weight) (hinv : SinkInv lo xs idx) :
    SinkInv lo ((xs.set s e).set idx sm) s := by
  have hget := fun k => getElem?_swap xs s idx k sm e hsm he
  have hself : weightLE (some sm) (some e) := hge
  refine ⟨?_, ?_⟩
  · intro j hj hjs
    by_cases hji : j = idx
    · subst hji
      rcases hs with hs | hs
      · subst hs
        rw [hget j, hget (2 * j + 1), hget (2 * j + 2)]
        have h1 : ¬ (2 * j + 1 = j) := by omega
        have h2 : ¬ (2 * j + 2 = j) := by omega
        have h3 : ¬ (2 * j + 2 = 2 * j + 1) := by omega
        simp only [if_true, h1, h2, h3, if_false]
        exact ⟨hself, hle2⟩
      · subst hs
        rw [hget j, hget (2 * j + 1), hget (2 * j + 2)]
        have h1 : ¬ (2 * j + 1 = j) := by omega
        have h2 : ¬ (2 * j + 2 = j) := by omega
        have h3 : ¬ (2 * j + 1 = 2 * j + 2) := by omega
        simp only [if_true, h1, h2, h3, if_false]
        exact ⟨hle1, hself⟩
    · rw [hget j, hget (2 * j + 1), hget (2 * j + 2)]
      simp only [hji, hjs, if_false]
      have hc1 : ¬ (2 * j + 1 = s) := by omega
      have hc2 : ¬ (2 * j + 2 = s) := by omega
      simp only [hc1, hc2, if_false]
      have hold := hinv.1 j hj hji
      constructor
      · by_cases hc : 2 * j + 1 = idx
        · simp only [hc, if_true]
          have hp := hinv.2 j hj (Or.inl hc.symm)
          rcases hs with hs | hs
          · rw [← hs, hsm] at hp; exact hp.1
          · rw [← hs, hsm] at hp; exact hp.2
        · simp only [hc, if_false]; exact hold.1
      · by_cases hc : 2 * j + 2 = idx
        · simp only [hc, if_true]
          have hp := hinv.2 j hj (Or.inr hc.symm)
          rcases hs with hs | hs
          · rw [← hs, hsm] at hp; exact hp.1
          · rw [← hs, hsm] at hp; exact hp.2
        · simp only [hc, if_false]; exact hold.2
  · intro p hp hps
    have hpi : p = idx := by omega
    subst hpi
    have hsp : s ≠ p := by omega
    have hold := hinv.1 s (by omega) hsp
    rw [hsm] at hold
    rw [hget p, hget (2 * s + 1), hget (2 * s + 2)]
    have h1 : ¬ (2 * s + 1 = p) := by omega
    have h2 : ¬ (2 * s + 2 = p) := by omega
    have h3 : ¬ (2 * s + 1 = s) := by omega
    have h4 : ¬ (2 * s + 2 = s) := by omega
    simp only [if_true, h1, h2, h3, h4, if_false]
    exact hold

/-- The loop of `MinHeap.Sink`, started where the invariant holds and with enough fuel,
returns; it permutes the slice, keeps `Size`, and the heap property holds from `lo` on. -/
theorem MinHeap.sinkLoop_spec (lo : Nat) : ∀ (fuel : Nat) (xs : List Node) (sz idx : Nat),
    lo ≤ idx → 0 < fuel → xs.length < fuel + idx → SinkInv lo xs idx →
    ∃ ys, MinHeap.sinkLoop fuel ⟨xs, sz⟩ idx = .done () ⟨ys, sz⟩ ∧ ys.Perm xs ∧
      HeapFrom lo ys := by
  intro fuel
  induction fuel with
  | zero => intro xs sz idx _ h; omega
  | succ fuel ih =>
    intro xs sz idx hlo _ hlen hinv
    by_cases hR : 2 * idx + 2 ≤ xs.length
    · obtain ⟨s, sm, e, hs, hsm, he, hle1, hle2, hstep⟩ :=
        MinHeap.sinkLoop_step fuel xs sz idx hR
      rw [hstep]
      by_cases hlt : e.Weight < sm.Weight
      · rw [if_pos hlt]
        refine ⟨xs, rfl, List.Perm.refl _, ?_⟩
        intro j hj
        by_cases hji : j = idx
        · subst hji
          rw [he]
          exact ⟨weightLE_of_le_left (Int.le_of_lt hlt) hle1,
            weightLE_of_le_left (Int.le_of_lt hlt) hle2⟩
        · exact hinv.1 j hj hji
      · rw [if_neg hlt]
        have hslt : s < xs.length := by
          rcases List.getElem?_eq_some_iff.1 hsm with ⟨h, _⟩; exact h
        have hinv2 := SinkInv_swap lo xs idx s sm e hlo hs hsm he hle1 hle2
          (Int.not_lt.1 hlt) hinv
        obtain ⟨ys, hys, hperm, hheap⟩ := ih ((xs.set s e).set idx sm) sz s (by omega)
          (by omega) (by simp only [List.length_set]; omega) hinv2
        exact ⟨ys, hys, hperm.trans (swap_perm sm e xs s idx hsm he), hheap⟩
    · have hdone : MinHeap.sinkLoop (fuel + 1) ⟨xs, sz⟩ idx = .done () ⟨xs, sz⟩ := by
        have : idx * 2 + 2 > xs.length := by omega
        simp [MinHeap.sinkLoop, MinHeap.Left, MinHeap.Right, this]
      refine ⟨xs, hdone, List.Perm.refl _, ?_⟩
      intro j hj
      by_cases hji : j = idx
      · subst hji
        have h1 : xs[2 * j + 1]? = none := List.getElem?_eq_none (by omega)
        have h2 : xs[2 * j + 2]? = none := List.getElem?_eq_none (by omega)
        rw [h1, h2]
        exact ⟨weightLE_none_right _, weightLE_none_right _⟩
      · exact hinv.1 j hj hji

/-- Go `Sink` on the binary heap returns for every receiver and every index. -/
theorem MinHeap.Sink_spec (lo : Nat) (m : MinHeap) (idx : Nat) (hlo : lo ≤ idx)
    (hinv : SinkInv lo m.Heap idx) :
    ∃ ys, m.Sink idx = .done () ⟨ys, m.Size⟩ ∧ ys.Perm m.Heap ∧ HeapFrom lo ys := by
  obtain ⟨xs, sz⟩ := m
  exact MinHeap.sinkLoop_spec lo (xs.length + 1) xs sz idx hlo (by omega) (by omega) hinv

/-! ## `MinHeap.Heapify` -/

theorem SinkInv_of_HeapFrom_succ (i : Nat) (xs : List Node) (h : HeapFrom (i + 1) xs) :
    SinkInv i xs i := by
  refine ⟨?_, ?_⟩
  · intro j hj hji
    exact h j (by omega)
  · intro p hp hpi
    omega

/-- The sink loop of `Heapify`, started at `i` on a slice that is a heap from `i + 1` on,
returns a permutation of the slice that is a heap. -/
theorem MinHeap.heapifyLoop_spec : ∀ (i : Nat) (xs : List Node) (sz : Nat),
    HeapFrom (i + 1) xs →
    ∃ ys, MinHeap.heapifyLoop i ⟨xs, sz⟩ = .done () ⟨ys, sz⟩ ∧ ys.Perm xs ∧ HeapFrom 0 ys := by
  intro i
  induction i with
  | zero =>
    intro xs sz h
    exact MinHeap.Sink_spec 0 ⟨xs, sz⟩ 0 (Nat.le_refl _) (SinkInv_of_HeapFrom_succ 0 xs h)
  | succ i ih =>
    intro xs sz h
    obtain ⟨ys, hys, hperm, hheap⟩ :=
      MinHeap.Sink_spec (i + 1) ⟨xs, sz⟩ (i + 1) (Nat.le_refl _)
        (SinkInv_of_HeapFrom_succ (i + 1) xs h)
    obtain ⟨zs, hzs, hperm2, hheap2⟩ := ih ys sz hheap
    refine ⟨zs, ?_, hperm2.trans hperm, hheap2⟩
    simp only [MinHeap.heapifyLoop]
    simp only [] at hys
    rw [hys]
    exact hzs

/-- Go `Heapify` returns for every receiver and every slice: the new `Heap` is a permutation
of `arr` with the binary min-heap property and `Size` is `len(arr)`. -/
theorem MinHeap.Heapify_spec (m : MinHeap) (arr : List Node) :
    ∃ ys, m.Heapify arr = .done () ⟨ys, arr.length⟩ ∧ ys.Perm arr ∧ isMinHeap ys := by
  have hstart : HeapFrom ((max 0 ((((arr.length / 2 : Nat)) : Int) - 1)).toNat + 1) arr := by
    intro j hj
    have h1 : arr[2 * j + 1]? = none := List.getElem?_eq_none (by omega)
    have h2 : arr[2 * j + 2]? = none := List.getElem?_eq_none (by omega)
    rw [h1, h2]
    exact ⟨weightLE_none_right _, weightLE_none_right _⟩
  obtain ⟨ys, hys, hperm, hheap⟩ := MinHeap.heapifyLoop_spec _ arr m.Size hstart
  refine ⟨ys, ?_, hperm, (isMinHeap_iff_HeapFrom ys).2 hheap⟩
  simp only [MinHeap.Heapify]
  rw [hys]
  rfl

/-! ## `MinHeap.Poll` on a heap -/

/-- In a binary min-heap the root weighs at most every node. -/
theorem isMinHeap_root_le (xs : List Node) (h : isMinHeap xs) (a : Node)
    (ha : xs[0]? = some a) : ∀ (k : Nat) (x : Node), xs[k]? = some x → a.Weight ≤ x.Weight := by
  intro k
  induction k using Nat.strong_induction_on with
  | _ k ih =>
    intro x hx
    by_cases hk : k = 0
    · subst hk
      rw [ha] at hx
      cases hx
      exact Int.le_refl _
    · have hklt : k < xs.length := by
        rcases List.getElem?_eq_some_iff.1 hx with ⟨h, _⟩; exact h
      have hplt : (k - 1) / 2 < xs.length := by omega
      obtain ⟨p, hp⟩ : ∃ p, xs[(k - 1) / 2]? = some p := ⟨_, List.getElem?_eq_getElem hplt⟩
      have hap := ih ((k - 1) / 2) (by omega) p hp
      have hpar := h ((k - 1) / 2) hplt
      rw [hp] at hpar
      have hcase : k = 2 * ((k - 1) / 2) + 1 ∨ k = 2 * ((k - 1) / 2) + 2 := by omega
      rcases hcase with hc | hc
      · rw [← hc, hx] at hpar
        exact Int.le_trans hap hpar.1
      · rw [← hc, hx] at hpar
        exact Int.le_trans hap hpar.2

/-- Go `Swim(0)` returns at once on a non-empty slice: index 0 is its own parent. -/
theorem MinHeap.Swim_zero (xs : List Node) (sz : Nat) (a : Node) (h : xs[0]? = some a) :
    MinHeap.Swim ⟨xs, sz⟩ 0 = .done () ⟨xs, sz⟩ := by
  have hp : MinHeap.Parent ⟨xs, sz⟩ 0 = 0 := rfl
  simp [MinHeap.Swim, MinHeap.swimLoop, hp, h]

/-- Go `Poll` on a binary min-heap with `Size == len(Heap) >= 1`: it returns the root with
the flag `false`; the remaining slice is a heap, holds the other nodes, and `Size` is its
length. -/
theorem MinHeap.Poll_spec (a : Node) (t : List Node) (h : isMinHeap (a :: t)) :
    ∃ ys, MinHeap.Poll ⟨a :: t, t.length + 1⟩ = .done (some a, false) ⟨ys, t.length⟩ ∧
      (a :: ys).Perm (a :: t) ∧ isMinHeap ys ∧ ys.length = t.length := by
  rcases List.eq_nil_or_concat t with ht | ⟨t1, b, ht⟩
  · subst ht
    refine ⟨[], ?_, List.Perm.refl _, by decide, rfl⟩
    simp [MinHeap.Poll, MinHeap.RemoveAt, MinHeap.Swap, Outcome.andThen]
  · rw [List.concat_eq_append] at ht
    subst ht
    have hlen : (t1 ++ [b]).length = t1.length + 1 := by simp
    have hlast : (a :: (t1 ++ [b]))[t1.length + 1]? = some b := by simp
    have hset : ((a :: (t1 ++ [b])).set 0 b).set (t1.length + 1) a = b :: (t1 ++ [a]) := by
      simp
    have htake : (b :: (t1 ++ [a])).take (t1.length + 1) = b :: t1 := by simp
    have hsame : ∀ k, 1 ≤ k → k < t1.length + 1 →
        (b :: t1)[k]? = (a :: (t1 ++ [b]))[k]? := by
      intro k hk1 hk2
      obtain ⟨k1, rfl⟩ : ∃ k1, k = k1 + 1 := ⟨k - 1, by omega⟩
      simp only [List.getElem?_cons_succ]
      rw [List.getElem?_append_left (by omega)]
    have hinv : SinkInv 0 (b :: t1) 0 := by
      refine ⟨?_, ?_⟩
      · intro j _ hj0
        have key : ∀ c, (c = 2 * j + 1 ∨ c = 2 * j + 2) →
            weightLE (b :: t1)[j]? (b :: t1)[c]? := by
          intro c hjc
          by_cases hc : c < t1.length + 1
          · rw [hsame j (by omega) (by omega), hsame c (by omega) hc]
            have hj := h j (by simp; omega)
            rcases hjc with rfl | rfl
            · exact hj.1
            · exact hj.2
          · have : (b :: t1)[c]? = none := List.getElem?_eq_none (by simp; omega)
            rw [this]
            exact weightLE_none_right _
        exact ⟨key _ (Or.inl rfl), key _ (Or.inr rfl)⟩
      · intro p _ hp
        omega
    obtain ⟨ys, hys, hperm, hheap⟩ := MinHeap.Sink_spec 0 ⟨b :: t1, t1.length + 1⟩ 0
      (Nat.le_refl _) hinv
    simp only [] at hys hperm
    have hyslen : ys.length = t1.length + 1 := by simpa using hperm.length_eq
    obtain ⟨cur, hcur⟩ : ∃ cur, ys[0]? = some cur :=
      ⟨_, List.getElem?_eq_getElem (by omega)⟩
    refine ⟨ys, ?_, ?_, (isMinHeap_iff_HeapFrom ys).2 hheap, by simpa using hyslen⟩
    · have hne : ¬ (0 = t1.length + 1) := by omega
      simp only [MinHeap.Poll, MinHeap.RemoveAt, MinHeap.Swap, Outcome.andThen, hlen]
      simp [hset, hys, hcur, MinHeap.Swim_zero ys _ cur hcur]
    · have h1 : (b :: t1).Perm (t1 ++ [b]) := by
        simpa using (List.perm_append_comm : ([b] ++ t1).Perm (t1 ++ [b]))
      exact (hperm.trans h1).cons a

/-- Polling a binary min-heap `n = Size = len(Heap)` times returns every node, each with the
flag `false`, in non-decreasing order of weight, and leaves the empty heap. -/
theorem MinHeap.pollN_spec : ∀ (n : Nat) (xs : List Node), xs.length = n → isMinHeap xs →
    ∃ out : List Node,
      MinHeap.pollN n ⟨xs, n⟩ = .done (out.map fun x => (some x, false)) ⟨[], 0⟩ ∧
      out.Perm xs ∧ out.Pairwise (fun x y => x.Weight ≤ y.Weight) := by
  intro n
  induction n with
  | zero =>
    intro xs hlen _
    have : xs = [] := List.length_eq_zero.1 hlen
    subst this
    exact ⟨[], rfl, List.Perm.refl _, List.Pairwise.nil⟩
  | succ n ih =>
    intro xs hlen h
    match xs, hlen, h with
    | a :: t, hlen, h =>
      have htl : t.length = n := by simpa using hlen
      obtain ⟨ys, hpoll, hperm, hheap, hyl⟩ := MinHeap.Poll_spec a t h
      rw [htl] at hpoll hyl
      obtain ⟨out, hout, hoperm, hsorted⟩ := ih ys hyl hheap
      refine ⟨a :: out, ?_, (hoperm.cons a).trans hperm, ?_⟩
      · simp only [MinHeap.pollN, hpoll, Outcome.andThen, hout, List.map_cons]
      · refine List.Pairwise.cons ?_ hsorted
        intro x hx
        have hxin : x ∈ a :: t := hperm.subset (List.mem_cons_of_mem a (hoperm.subset hx))
        obtain ⟨k, hk⟩ := List.getElem?_of_mem hxin
        exact isMinHeap_root_le (a :: t) h a (by simp) k x hk

/-! ## The d-ary heap: behaviour at concrete inputs -/

/-- C1, evaluated on the code: with degree 2 the slice of weights `[1, 5, 3]` is a heap and
`size == len(heap)`, yet `Insert` of a node of weight 4 returns the slice of weights
`[4, 1, 3, 5]`, which is not a heap: the new node passes its grandparent of weight 1. -/
theorem MinDHeap.Insert_breaks_dHeapProp :
    dHeapProp 2 (nodesOfWeights [1, 5, 3]) ∧
    (nodesOfWeights [1, 5, 3]).length = 3 ∧
    (MinDHeap.mk (nodesOfWeights [1, 5, 3]) 3 2).Insert (NewNode 3 4 4)
      = .done () (MinDHeap.mk (nodesAt [(3, 4), (0, 1), (2, 3), (1, 5)]) 4 2) ∧
    ¬ dHeapProp 2 (nodesAt [(3, 4), (0, 1), (2, 3), (1, 5)]) := by
  decide

/-- C2, evaluated on the code: `New(2, ...)` on the ten scenario nodes returns a heap whose
`Peek()` is the node of weight 13, while the input holds a node of weight 5. -/
theorem MinDHeap.New_Peek_scenario :
    ∃ m, New 2 (nodesOfWeights scenarioWeights) = .done () m ∧
      m.Peek = .done (NewNode 7 13 13) m ∧
      NewNode 3 5 5 ∈ nodesOfWeights scenarioWeights ∧
      ¬ isMinWeightOf (NewNode 7 13 13) (nodesOfWeights scenarioWeights) := by
  refine ⟨MinDHeap.mk (nodesAt [(7, 13), (5, 9), (4, 7), (3, 5), (0, 10), (2, 30), (6, 11),
    (1, 20), (8, 15), (9, 17)]) 10 2, by decide, by decide, by decide, ?_⟩
  intro h
  exact absurd (h.2 (NewNode 3 5 5) (by decide)) (by decide)

/-- C3, evaluated on the code: on the ten-node heap that `New(2, ...)` returns for the
scenario (`size == len(heap) == 10`), `Poll()` does not return: `Sink` reads `heap[13]` of a
nine-element slice.  The same happens on every two-node heap, here weights `[1, 2]`. -/
theorem MinDHeap.Poll_scenario_index_panic :
    (∃ m, New 2 (nodesOfWeights scenarioWeights) = .done () m ∧
      m.size = m.heap.length ∧ m.size = 10 ∧
      m.Poll = .indexPanic (MinDHeap.mk (nodesAt [(4, 7), (5, 9), (6, 11), (3, 5), (0, 10),
        (2, 30), (9, 17), (1, 20), (8, 15)]) 9 2)) ∧
    (MinDHeap.mk (nodesOfWeights [1, 2]) 2 2).Poll
      = .indexPanic (MinDHeap.mk (nodesAt [(1, 2)]) 1 2) := by
  refine ⟨⟨MinDHeap.mk (nodesAt [(7, 13), (5, 9), (4, 7), (3, 5), (0, 10), (2, 30), (6, 11),
    (1, 20), (8, 15), (9, 17)]) 10 2, by decide, by decide, by decide, by decide⟩, by decide⟩

/-- C4, evaluated on the code: the round trip with degree 2 on two nodes of weights
`[1, 2]` fails: both inserts return, the first `Poll()` raises index out of range. -/
theorem MinDHeap.roundTrip_two_nodes_index_panic :
    MinDHeap.roundTrip 2 (nodesOfWeights [1, 2])
      = .indexPanic (MinDHeap.mk (nodesAt [(1, 2)]) 1 2) := by
  decide

/-! ## The binary heap: `Heapify` and `Poll` -/

/-- C5: `MinHeap.Heapify` builds a heap.  For every receiver and every slice `arr` (the empty
and the one-element slice included) `Heapify(arr)` returns, and afterwards the field `Heap`
has the binary min-heap property. -/
theorem MinHeap.Heapify_builds_heap (m : MinHeap) (arr : List Node) :
    ∃ m1, m.Heapify arr = .done () m1 ∧ isMinHeap m1.Heap := by
  obtain ⟨ys, hys, _, hheap⟩ := MinHeap.Heapify_spec m arr
  exact ⟨⟨ys, arr.length⟩, hys, hheap⟩

/-- C6: for every non-empty slice `arr`, `Heapify(arr)` on the empty `MinHeap` followed by one
`Poll()` returns a node of `arr` of least weight together with the boolean `false`, and leaves
`Size == len(arr) - 1`. -/
theorem MinHeap.Heapify_Poll_min (arr : List Node) (hne : arr ≠ []) :
    ∃ n m1, MinHeap.heapifyThenPoll ⟨[], 0⟩ arr 1 = .done [(some n, false)] m1 ∧
      isMinWeightOf n arr ∧ m1.Size = arr.length - 1 := by
  obtain ⟨ys, hys, hperm, hheap⟩ := MinHeap.Heapify_spec ⟨[], 0⟩ arr
  match ys, hys, hperm, hheap with
  | [], _, hperm, _ => exact absurd hperm.symm.eq_nil hne
  | a :: t, hys, hperm, hheap =>
    obtain ⟨zs, hpoll, _, _, _⟩ := MinHeap.Poll_spec a t hheap
    have hlen : arr.length = t.length + 1 := by simpa using hperm.length_eq.symm
    rw [hlen] at hys
    refine ⟨a, ⟨zs, t.length⟩, ?_, ⟨hperm.subset (List.mem_cons_self a t), ?_⟩,
      by simp only []; omega⟩
    · simp only [MinHeap.heapifyThenPoll, hys, Outcome.andThen, MinHeap.pollN, hpoll]
    · intro x hx
      obtain ⟨k, hk⟩ := List.getElem?_of_mem (hperm.symm.subset hx)
      exact isMinHeap_root_le (a :: t) hheap a (by simp) k x hk

/-- C6 at the input of `TestPoll`: the ten scenario nodes are a non-empty slice, the property
holds there, and the call evaluates to the node of `Value` 5 with `Size` 9. -/
theorem MinHeap.Heapify_Poll_min_witness :
    nodesOfWeights scenarioWeights ≠ [] ∧
    (∃ n m1, MinHeap.heapifyThenPoll ⟨[], 0⟩ (nodesOfWeights scenarioWeights) 1
        = .done [(some n, false)] m1 ∧
      isMinWeightOf n (nodesOfWeights scenarioWeights) ∧
      m1.Size = (nodesOfWeights scenarioWeights).length - 1) ∧
    MinHeap.heapifyThenPoll ⟨[], 0⟩ (nodesOfWeights scenarioWeights) 1
      = .done [(some (NewNode 3 5 5), false)]
          (MinHeap.mk (nodesAt [(4, 7), (0, 10), (5, 9), (7, 13), (9, 17), (2, 30), (6, 11),
            (1, 20), (8, 15)]) 9) :=
  ⟨by decide, MinHeap.Heapify_Poll_min _ (by decide), by decide⟩

/-- C7: min-extraction order.  For every receiver and every slice `arr`, `Heapify(arr)`
followed by `len(arr)` calls of `Poll()` returns; every call yields a node with the flag
`false`; the nodes come in non-decreasing order of weight and are a permutation of `arr`;
the heap is empty afterwards (`Size == 0`, empty slice). -/
theorem MinHeap.Heapify_pollN_sorted (m : MinHeap) (arr : List Node) :
    ∃ (out : List Node) (m1 : MinHeap),
      MinHeap.heapifyThenPoll m arr arr.length
        = .done (out.map fun x => (some x, false)) m1 ∧
      out.Pairwise (fun x y => x.Weight ≤ y.Weight) ∧ out.Perm arr ∧
      m1.Size = 0 ∧ m1.Heap = [] := by
  obtain ⟨ys, hys, hperm, hheap⟩ := MinHeap.Heapify_spec m arr
  obtain ⟨out, hout, hoperm, hsorted⟩ :=
    MinHeap.pollN_spec arr.length ys hperm.length_eq hheap
  refine ⟨out, ⟨[], 0⟩, ?_, hsorted, hoperm.trans hperm, rfl, rfl⟩
  simp only [MinHeap.heapifyThenPoll, hys, Outcome.andThen, hout]

/-- C8: for every receiver and every slice `arr`, after `Heapify(arr)` the field `Size` equals
`len(arr)` and `len(Heap)`, and `Heap` is a permutation of `arr`. -/
theorem MinHeap.Heapify_size_perm (m : MinHeap) (arr : List Node) :
    ∃ m1, m.Heapify arr = .done () m1 ∧ m1.Size = arr.length ∧
      m1.Size = m1.Heap.length ∧ m1.Heap.Perm arr := by
  obtain ⟨ys, hys, hperm, _⟩ := MinHeap.Heapify_spec m arr
  exact ⟨⟨ys, arr.length⟩, hys, rfl, hperm.length_eq.symm, hperm⟩

/-- The check of `TestHeapify`: on the ten scenario nodes `Size` is 10 after `Heapify`. -/
theorem MinHeap.TestHeapify_size :
    ∃ m1, MinHeap.Heapify ⟨[], 0⟩ (nodesOfWeights scenarioWeights) = .done () m1 ∧
      m1.Size = 10 :=
  ⟨MinHeap.mk (nodesAt [(3, 5), (4, 7), (5, 9), (7, 13), (0, 10), (2, 30), (6, 11), (1, 20),
    (8, 15), (9, 17)]) 10, by decide, rfl⟩

/-! ## The binary heap: behaviour of `Swim` at concrete inputs -/

/-- C9, evaluated on the code: the slice of weights `[1, 5, 3]` is a binary min-heap with
`Size == len(Heap)`, yet `Insert` of a node of weight 4 returns the slice of weights
`[4, 1, 3, 5]`, which is not a heap. -/
theorem MinHeap.Insert_breaks_isMinHeap :
    isMinHeap (nodesOfWeights [1, 5, 3]) ∧
    (MinHeap.mk (nodesOfWeights [1, 5, 3]) 3).Insert (NewNode 3 4 4)
      = .done () (MinHeap.mk (nodesAt [(3, 4), (0, 1), (2, 3), (1, 5)]) 4) ∧
    ¬ isMinHeap (nodesAt [(3, 4), (0, 1), (2, 3), (1, 5)]) := by
  decide

/-- C10, evaluated on the code: the slice of weights `[1, 10, 2, 11, 12, 3, 4]` is a binary
min-heap with `Size == len(Heap) == 7`, yet `RemoveAt(3)` returns the removed node of weight
11 and leaves the slice of weights `[4, 1, 2, 10, 12, 3]`, which is not a heap. -/
theorem MinHeap.RemoveAt_breaks_isMinHeap :
    isMinHeap (nodesOfWeights [1, 10, 2, 11, 12, 3, 4]) ∧
    (MinHeap.mk (nodesOfWeights [1, 10, 2, 11, 12, 3, 4]) 7).RemoveAt 3
      = .done (NewNode 3 11 11)
          (MinHeap.mk (nodesAt [(6, 4), (0, 1), (2, 2), (1, 10), (4, 12), (5, 3)]) 6) ∧
    ¬ isMinHeap (nodesAt [(6, 4), (0, 1), (2, 2), (1, 10), (4, 12), (5, 3)]) := by
  decide

/-! ## Index arithmetic and `Swim` of the d-ary heap -/

theorem tdiv_pred_two (idx : Nat) : (Int.tdiv ((idx : Int) - 1) 2).toNat = (idx - 1) / 2 := by
  cases idx with
  | zero => rfl
  | succ n =>
    have h : ((n + 1 : Nat) : Int) - 1 = (n : Int) := by omega
    rw [h]
    have h2 : Int.tdiv (n : Int) 2 = ((n / 2 : Nat) : Int) := rfl
    rw [h2]
    rfl

theorem MinDHeap.parent_eq (m : MinDHeap) (idx : Nat) :
    (m.parent (idx : Int)).toNat = (idx - 1) / 2 := by
  have h : ¬ ((idx : Int) - 1 < -9223372036854775808) := by omega
  simp only [MinDHeap.parent, h, if_false]
  exact tdiv_pred_two idx

theorem MinHeap.Parent_eq (m : MinHeap) (idx : Nat) : m.Parent idx = (idx - 1) / 2 :=
  tdiv_pred_two idx

theorem pathUp_le : ∀ (fuel idx k : Nat), k ∈ pathUp fuel idx → k ≤ idx := by
  intro fuel
  induction fuel with
  | zero => intro idx k h; simp [pathUp] at h
  | succ f ih =>
    intro idx k h
    by_cases h0 : idx = 0
    · subst h0
      simp [pathUp] at h
      omega
    · simp only [pathUp, h0, if_false, List.mem_cons] at h
      rcases h with h | h
      · omega
      · have := ih _ _ h
        omega

theorem pathUp_self (fuel idx : Nat) (h : 0 < fuel) : idx ∈ pathUp fuel idx := by
  cases fuel with
  | zero => omega
  | succ f =>
    by_cases h0 : idx = 0
    · subst h0; simp [pathUp]
    · simp [pathUp, h0]

/-- The loop of `MinDHeap.Swim` when the flag is true: it returns, the node of `idx` ends at
index 0, every other index of the path to the root receives the node of its parent, and no
other slot changes. -/
theorem MinDHeap.swimLoop_true : ∀ (fuel : Nat) (xs : List Node) (sz : Nat) (d : Int)
    (idx : Nat),
    idx < fuel → idx < xs.length →
    ∃ ys, MinDHeap.swimLoop fuel true ⟨xs, sz, d⟩ idx ((idx - 1) / 2) = .done () ⟨ys, sz, d⟩ ∧
      ys.Perm xs ∧
      ∀ k, ys[k]? = if k = 0 then xs[idx]?
        else if k ∈ pathUp fuel idx then xs[(k - 1) / 2]? else xs[k]? := by
  intro fuel
  induction fuel with
  | zero => intro xs sz d idx h; omega
  | succ f ih =>
    intro xs sz d idx hf hlen
    by_cases h0 : idx = 0
    · subst h0
      refine ⟨xs, by simp [MinDHeap.swimLoop], List.Perm.refl _, ?_⟩
      intro k
      by_cases hk : k = 0
      · simp [hk]
      · simp [hk, pathUp]
    · have hp : (idx - 1) / 2 < idx := by omega
      obtain ⟨e, he⟩ : ∃ e, xs[idx]? = some e := ⟨_, List.getElem?_eq_getElem hlen⟩
      obtain ⟨pv, hpv⟩ : ∃ pv, xs[(idx - 1) / 2]? = some pv :=
        ⟨_, List.getElem?_eq_getElem (by omega)⟩
      obtain ⟨ys, hys, hperm, hget⟩ := ih ((xs.set idx pv).set ((idx - 1) / 2) e) sz d
        ((idx - 1) / 2) (by omega) (by simp only [List.length_set]; omega)
      have hsw := fun k => getElem?_swap xs idx ((idx - 1) / 2) k e pv he hpv
      refine ⟨ys, ?_, hperm.trans (swap_perm e pv xs idx _ he hpv), ?_⟩
      · have hpos : idx > 0 := by omega
        simp only [MinDHeap.swimLoop, hpos, decide_True, Bool.and_self, if_true,
          MinDHeap.swap, he, hpv, Outcome.andThen, MinDHeap.parent_eq]
        exact hys
      · intro k
        rw [hget k]
        by_cases hk : k = 0
        · simp only [hk, if_true]
          rw [hsw]
          simp [he]
        · simp only [hk, if_false]
          have hpath : pathUp (f + 1) idx = idx :: pathUp f ((idx - 1) / 2) := by
            simp [pathUp, h0]
          rw [hpath]
          by_cases hkp : k ∈ pathUp f ((idx - 1) / 2)
          · have hkle := pathUp_le _ _ _ hkp
            have h1 : ¬ ((k - 1) / 2 = (idx - 1) / 2) := by omega
            have h2 : ¬ ((k - 1) / 2 = idx) := by omega
            simp only [hkp, if_true, List.mem_cons, or_true]
            rw [hsw]
            simp only [h1, h2, if_false]
          · have hkne : k ≠ (idx - 1) / 2 := by
              intro hkeq
              exact hkp (hkeq ▸ pathUp_self f _ (by omega))
            simp only [hkp, if_false, List.mem_cons, or_false]
            rw [hsw]
            by_cases hki : k = idx
            · subst hki
              simp [hkne, hpv]
            · simp [hkne, hki]

/-- Go `Swim` of the d-ary heap at an index inside the slice: it returns; when the node is
not strictly lighter than its parent nothing changes, otherwise the node goes to index 0 and
the nodes of the path to the root move one step down the path. -/
theorem MinDHeap.Swim_spec (xs : List Node) (sz : Nat) (d : Int) (idx : Nat) (e p : Node)
    (he : xs[idx]? = some e) (hp : xs[(idx - 1) / 2]? = some p) :
    (¬ e.Weight < p.Weight → MinDHeap.Swim ⟨xs, sz, d⟩ idx = .done () ⟨xs, sz, d⟩) ∧
    (e.Weight < p.Weight → ∃ ys, MinDHeap.Swim ⟨xs, sz, d⟩ idx = .done () ⟨ys, sz, d⟩ ∧
      ys.Perm xs ∧
      ∀ k, ys[k]? = if k = 0 then some e
        else if k ∈ pathToRoot idx then xs[(k - 1) / 2]? else xs[k]?) := by
  have hlen : idx < xs.length := by
    rcases List.getElem?_eq_some_iff.1 he with ⟨h, _⟩; exact h
  constructor
  · intro hlt
    simp [MinDHeap.Swim, MinDHeap.parent_eq, he, hp, Node.Compare_eq_neg_one, hlt,
      MinDHeap.swimLoop]
  · intro hlt
    obtain ⟨ys, hys, hperm, hget⟩ :=
      MinDHeap.swimLoop_true (idx + 1) xs sz d idx (by omega) hlen
    refine ⟨ys, ?_, hperm, ?_⟩
    · simp [MinDHeap.Swim, MinDHeap.parent_eq, he, hp, Node.Compare_eq_neg_one, hlt, hys]
    · intro k
      rw [hget k, he]
      rfl

/-- Go `Insert` on a d-ary heap with `size == len(heap)` returns: the slice is a permutation
of the old slice with the new node appended, `size` grows by one, `deg` is kept. -/
theorem MinDHeap.Insert_spec (xs : List Node) (d : Int) (n : Node) :
    ∃ ys, MinDHeap.Insert ⟨xs, xs.length, d⟩ n = .done () ⟨ys, xs.length + 1, d⟩ ∧
      ys.Perm (xs ++ [n]) := by
  have he : (xs ++ [n])[xs.length]? = some n := by simp
  obtain ⟨p, hp⟩ : ∃ p, (xs ++ [n])[(xs.length - 1) / 2]? = some p :=
    ⟨_, List.getElem?_eq_getElem (by simp; omega)⟩
  have hspec := MinDHeap.Swim_spec (xs ++ [n]) (xs.length + 1) d xs.length n p he hp
  by_cases hlt : n.Weight < p.Weight
  · obtain ⟨ys, hys, hperm, _⟩ := hspec.2 hlt
    exact ⟨ys, by simpa [MinDHeap.Insert] using hys, hperm⟩
  · exact ⟨xs ++ [n], by simpa [MinDHeap.Insert] using hspec.1 hlt, List.Perm.refl _⟩

/-- Inserting a list of nodes one by one into a d-ary heap with `size == len(heap)`. -/
theorem MinDHeap.Heapify_inserts : ∀ (arr xs : List Node) (d : Int),
    ∃ ys, MinDHeap.Heapify ⟨xs, xs.length, d⟩ arr = .done () ⟨ys, xs.length + arr.length, d⟩ ∧
      ys.Perm (xs ++ arr) := by
  intro arr
  induction arr with
  | nil => intro xs d; exact ⟨xs, by simp [MinDHeap.Heapify], by simp⟩
  | cons a arr ih =>
    intro xs d
    obtain ⟨ys, hys, hperm⟩ := MinDHeap.Insert_spec xs d a
    have hlen : ys.length = xs.length + 1 := by simpa using hperm.length_eq
    obtain ⟨zs, hzs, hperm2⟩ := ih ys d
    rw [hlen] at hzs
    refine ⟨zs, ?_, ?_⟩
    · simp only [MinDHeap.Heapify, hys, Outcome.andThen, hzs, List.length_cons]
      congr 2
      omega
    · refine hperm2.trans ?_
      have : (ys ++ arr).Perm ((xs ++ [a]) ++ arr) := hperm.append_right arr
      simpa using this

/-- Go `New` returns for every degree and every list of nodes: the slice is a permutation of
the list, `size` is its length, and `deg` is the clamped degree. -/
theorem New_spec (degree : Int) (elems : List Node) :
    ∃ ys, New degree elems
        = .done () ⟨ys, elems.length, intOfFloat64 (max 2 (float64OfInt degree))⟩ ∧
      ys.Perm elems := by
  cases elems with
  | nil => exact ⟨[], by simp [New], List.Perm.refl _⟩
  | cons a t =>
    obtain ⟨ys, hys, hperm⟩ :=
      MinDHeap.Heapify_inserts (a :: t) [] (intOfFloat64 (max 2 (float64OfInt degree)))
    refine ⟨ys, ?_, by simpa using hperm⟩
    simpa [New] using hys

/-! ## `size` along the methods of the d-ary heap that return -/

theorem Outcome.andThen_done {σ α β : Type} {o : Outcome σ α} {k : α → σ → Outcome σ β}
    {b : β} {st : σ} (h : o.andThen k = .done b st) :
    ∃ a st1, o = .done a st1 ∧ k a st1 = .done b st := by
  cases o with
  | done a st1 => exact ⟨a, st1, rfl, h⟩
  | indexPanic st1 => cases h
  | outOfFuel => cases h

theorem MinDHeap.swap_size {m m1 : MinDHeap} {i j : Nat} {u : Unit}
    (h : m.swap i j = .done u m1) : m1.size = m.size := by
  unfold MinDHeap.swap at h
  split at h
  · cases h; rfl
  · cases h

theorem MinDHeap.swimLoop_size : ∀ (fuel : Nat) (flag : Bool) (m : MinDHeap) (idx p : Nat)
    (u : Unit) (m1 : MinDHeap),
    MinDHeap.swimLoop fuel flag m idx p = .done u m1 → m1.size = m.size := by
  intro fuel
  induction fuel with
  | zero => intro flag m idx p u m1 h; cases h
  | succ f ih =>
    intro flag m idx p u m1 h
    simp only [MinDHeap.swimLoop] at h
    split at h
    · cases hs : m.swap idx p with
      | done u2 m2 =>
        rw [hs] at h
        simp only [Outcome.andThen] at h
        rw [ih _ _ _ _ _ _ h, MinDHeap.swap_size hs]
      | indexPanic st => rw [hs] at h; cases h
      | outOfFuel => rw [hs] at h; cases h
    · cases h; rfl

theorem MinDHeap.Swim_size {m m1 : MinDHeap} {idx : Nat} {u : Unit}
    (h : m.Swim idx = .done u m1) : m1.size = m.size := by
  simp only [MinDHeap.Swim] at h
  split at h
  · exact MinDHeap.swimLoop_size _ _ _ _ _ _ _ h
  · cases h

theorem MinDHeap.sinkLoop_size : ∀ (fuel : Nat) (m : MinDHeap) (idx : Nat)
    (u : Unit) (m1 : MinDHeap),
    MinDHeap.sinkLoop fuel m idx = .done u m1 → m1.size = m.size := by
  intro fuel
  induction fuel with
  | zero => intro m idx u m1 h; cases h
  | succ f ih =>
    intro m idx u m1 h
    simp only [MinDHeap.sinkLoop] at h
    split at h
    · cases h
    · split at h
      · cases h
      · split at h
        · split at h
          · cases h; rfl
          · obtain ⟨u2, m2, hs, hk⟩ := Outcome.andThen_done h
            rw [ih _ _ _ _ hk, MinDHeap.swap_size hs]
        · cases h

theorem MinDHeap.Sink_size {m m1 : MinDHeap} {idx : Nat} {u : Unit}
    (h : m.Sink idx = .done u m1) : m1.size = m.size :=
  MinDHeap.sinkLoop_size _ _ _ _ _ h

/-- A call of `RemoveAt` on the d-ary heap that returns has decreased `size` by one. -/
theorem MinDHeap.RemoveAt_size {m m1 : MinDHeap} {idx : Nat} {n : Node}
    (h : m.RemoveAt idx = .done n m1) : m1.size + 1 = m.size := by
  unfold MinDHeap.RemoveAt at h
  split at h
  · cases h
  · split at h
    · cases h
    · rename_i last hsize
      cases hs : m.swap idx last with
      | indexPanic st => rw [hs] at h; cases h
      | outOfFuel => rw [hs] at h; cases h
      | done u2 m2 =>
        have h2 := MinDHeap.swap_size hs
        rw [hs] at h
        simp only [Outcome.andThen] at h
        split at h
        · cases h
          simp only []
          omega
        · split at h
          · cases h
          · cases hk : MinDHeap.Sink
                { heap := List.take (m2.size - 1) m2.heap, size := m2.size - 1, deg := m2.deg }
                idx with
            | indexPanic st => rw [hk] at h; cases h
            | outOfFuel => rw [hk] at h; cases h
            | done u3 m4 =>
              have h4 := MinDHeap.Sink_size hk
              rw [hk] at h
              simp only [] at h h4
              split at h
              · cases h
              · split at h
                · cases hw : m4.Swim idx with
                  | indexPanic st => rw [hw] at h; cases h
                  | outOfFuel => rw [hw] at h; cases h
                  | done u5 m5 =>
                    have h5 := MinDHeap.Swim_size hw
                    rw [hw] at h
                    cases h
                    omega
                · cases h
                  omega

/-- A call of `Poll` on the d-ary heap that returns a node has decreased `size` by one. -/
theorem MinDHeap.Poll_size {m m1 : MinDHeap} {n : Node} {b : Bool}
    (h : m.Poll = .done (some n, b) m1) : m1.size + 1 = m.size := by
  unfold MinDHeap.Poll at h
  split at h
  · cases h
  · cases hr : m.RemoveAt 0 with
    | indexPanic st => rw [hr] at h; cases h
    | outOfFuel => rw [hr] at h; cases h
    | done r m2 =>
      rw [hr] at h
      simp only [Outcome.andThen] at h
      cases h
      exact MinDHeap.RemoveAt_size hr

/-! ## `Contains`, the degree of `New`, and `Sink` at a leaf of the d-ary heap -/

theorem MinDHeap.Contains_iff (m : MinDHeap) (v : Int) :
    m.Contains v = true ↔ ∃ n ∈ m.heap, n.Value = v := by
  have key : List.findIdx (fun x => x.Value == v) m.heap < m.heap.length ↔
      ∃ n ∈ m.heap, n.Value = v := by
    rw [List.findIdx_lt_length]
    simp
  unfold MinDHeap.Contains MinDHeap.find
  by_cases h : List.findIdx (fun x => x.Value == v) m.heap < m.heap.length
  · simp only [h, if_true, Option.isSome_some, true_iff]
    exact key.1 h
  · simp only [h, if_false, Option.isSome_none]
    constructor
    · intro hf; cases hf
    · intro hex; exact absurd (key.2 hex) h

/-- The conversion `float64(n)` is exact up to `2^53`. -/
theorem float64OfNat_exact (n : Nat) (h : n ≤ 9007199254740992) : float64OfNat n = n := by
  rcases Nat.lt_or_ge n 9007199254740992 with hlt | hge
  · have h0 : float64DroppedBits 64 n = 0 := by simp [float64DroppedBits, hlt]
    simp [float64OfNat, h0, Nat.mod_one]
  · have : n = 9007199254740992 := by omega
    subst this
    decide

/-- The clamp of `New` yields `max(2, degree)` for every degree up to `2^53`. -/
theorem clamp_degree (degree : Int) (h : degree ≤ 9007199254740992) :
    intOfFloat64 (max 2 (float64OfInt degree)) = max 2 degree := by
  have hmax : max 2 (float64OfInt degree) = max 2 degree := by
    by_cases hneg : degree < 0
    · have hle : float64OfInt degree ≤ 0 := by
        simp only [float64OfInt, hneg, if_true]
        omega
      omega
    · have hex : float64OfNat degree.natAbs = degree.natAbs :=
        float64OfNat_exact _ (by omega)
      have : float64OfInt degree = degree := by
        simp only [float64OfInt, hneg, if_false, hex]
        omega
      rw [this]
  have hlt : max 2 degree < 9223372036854775808 := by omega
  rw [hmax]
  simp only [intOfFloat64, hlt, if_true]

/-- Go `Sink` of the d-ary heap at an index all of whose children lie outside the slice
raises index out of range before anything is written. -/
theorem MinDHeap.Sink_leaf_indexPanic (m : MinDHeap) (i : Nat)
    (hsize : m.size = m.heap.length)
    (hleaf : ∀ c ∈ m.getChildrenIndices i, (m.size : Int) ≤ c) :
    m.Sink i = .indexPanic m := by
  unfold MinDHeap.Sink
  simp only [MinDHeap.sinkLoop]
  cases hch : m.getChildrenIndices i with
  | nil => simp
  | cons c rest =>
    have hc : (m.size : Int) ≤ c := hleaf c (by rw [hch]; exact List.mem_cons_self c rest)
    have hnone : slotAt m.heap c = none := by
      unfold slotAt
      split
      · rfl
      · exact List.getElem?_eq_none (by omega)
    simp [MinDHeap.pickSmallest, hnone]

/-! ## `MinHeap.RemoveAt` on an arbitrary slice -/

/-- The loop of `MinHeap.Sink` returns on every slice and permutes it. -/
theorem MinHeap.sinkLoop_perm : ∀ (fuel : Nat) (xs : List Node) (sz idx : Nat),
    0 < fuel → xs.length < fuel + idx →
    ∃ ys, MinHeap.sinkLoop fuel ⟨xs, sz⟩ idx = .done () ⟨ys, sz⟩ ∧ ys.Perm xs := by
  intro fuel
  induction fuel with
  | zero => intro xs sz idx h; omega
  | succ fuel ih =>
    intro xs sz idx _ hlen
    by_cases hR : 2 * idx + 2 ≤ xs.length
    · obtain ⟨s, sm, e, hs, hsm, he, _, _, hstep⟩ := MinHeap.sinkLoop_step fuel xs sz idx hR
      rw [hstep]
      by_cases hlt : e.Weight < sm.Weight
      · rw [if_pos hlt]
        exact ⟨xs, rfl, List.Perm.refl _⟩
      · rw [if_neg hlt]
        have hslt : s < xs.length := by
          rcases List.getElem?_eq_some_iff.1 hsm with ⟨h, _⟩; exact h
        obtain ⟨ys, hys, hperm⟩ := ih ((xs.set s e).set idx sm) sz s (by omega)
          (by simp only [List.length_set]; omega)
        exact ⟨ys, hys, hperm.trans (swap_perm sm e xs s idx hsm he)⟩
    · refine ⟨xs, ?_, List.Perm.refl _⟩
      have : idx * 2 + 2 > xs.length := by omega
      simp [MinHeap.sinkLoop, MinHeap.Left, MinHeap.Right, this]

/-- The loop of `MinHeap.Swim` returns at every index inside the slice and permutes it. -/
theorem MinHeap.swimLoop_perm : ∀ (fuel : Nat) (flag : Bool) (xs : List Node) (sz idx : Nat),
    idx < fuel → idx < xs.length →
    ∃ ys, MinHeap.swimLoop fuel flag ⟨xs, sz⟩ idx ((idx - 1) / 2) = .done () ⟨ys, sz⟩ ∧
      ys.Perm xs := by
  intro fuel
  induction fuel with
  | zero => intro flag xs sz idx h; omega
  | succ f ih =>
    intro flag xs sz idx hf hlen
    by_cases hgo : (decide (idx > 0) && flag) = true
    · have hpos : 0 < idx := by
        simp only [Bool.and_eq_true, decide_eq_true_eq] at hgo
        exact hgo.1
      obtain ⟨e, he⟩ : ∃ e, xs[idx]? = some e := ⟨_, List.getElem?_eq_getElem hlen⟩
      obtain ⟨pv, hpv⟩ : ∃ pv, xs[(idx - 1) / 2]? = some pv :=
        ⟨_, List.getElem?_eq_getElem (by omega)⟩
      obtain ⟨ys, hys, hperm⟩ := ih flag ((xs.set idx pv).set ((idx - 1) / 2) e) sz
        ((idx - 1) / 2) (by omega) (by simp only [List.length_set]; omega)
      refine ⟨ys, ?_, hperm.trans (swap_perm e pv xs idx _ he hpv)⟩
      simp only [MinHeap.swimLoop, hgo, if_true, MinHeap.Swap, he, hpv, Outcome.andThen,
        MinHeap.Parent_eq]
      exact hys
    · refine ⟨xs, ?_, List.Perm.refl _⟩
      simp only [MinHeap.swimLoop, hgo]
      rfl

/-- Go `Swim` of the binary heap returns at every index inside the slice. -/
theorem MinHeap.Swim_perm (xs : List Node) (sz idx : Nat) (hlen : idx < xs.length) :
    ∃ ys, MinHeap.Swim ⟨xs, sz⟩ idx = .done () ⟨ys, sz⟩ ∧ ys.Perm xs := by
  obtain ⟨e, he⟩ : ∃ e, xs[idx]? = some e := ⟨_, List.getElem?_eq_getElem hlen⟩
  obtain ⟨pv, hpv⟩ : ∃ pv, xs[(idx - 1) / 2]? = some pv :=
    ⟨_, List.getElem?_eq_getElem (by omega)⟩
  obtain ⟨ys, hys, hperm⟩ :=
    MinHeap.swimLoop_perm (idx + 1) (decide (e.Compare pv = -1)) xs sz idx (by omega) hlen
  refine ⟨ys, ?_, hperm⟩
  simp only [MinHeap.Swim, MinHeap.Parent_eq, he, hpv]
  exact hys

/-- Go `RemoveAt` of the binary heap with `Size == len(Heap)` at an index inside the slice:
it returns the node of that index; the new slice is one shorter, and together with the
returned node it is a permutation of the old slice. -/
theorem MinHeap.RemoveAt_spec (xs : List Node) (idx : Nat) (r : Node)
    (hr : xs[idx]? = some r) :
    ∃ ys, MinHeap.RemoveAt ⟨xs, xs.length⟩ idx = .done r ⟨ys, xs.length - 1⟩ ∧
      ys.length = xs.length - 1 ∧ (r :: ys).Perm xs := by
  have hidx : idx < xs.length := by
    rcases List.getElem?_eq_some_iff.1 hr with ⟨h, _⟩; exact h
  obtain ⟨L, hL⟩ : ∃ L, xs.length = L + 1 := ⟨xs.length - 1, by omega⟩
  obtain ⟨b, hb⟩ : ∃ b, xs[L]? = some b := ⟨_, List.getElem?_eq_getElem (by omega)⟩
  have hsw := fun k => getElem?_swap xs idx L k r b hr hb
  have hswperm : ((xs.set idx b).set L r).Perm xs := swap_perm r b xs idx L hr hb
  have hlen1 : ((xs.set idx b).set L r).length = L + 1 := by
    simp only [List.length_set]; exact hL
  have hsplit : (xs.set idx b).set L r = ((xs.set idx b).set L r).take L ++ [r] := by
    have h1 : ((xs.set idx b).set L r).take (L + 1) = (xs.set idx b).set L r :=
      List.take_of_length_le (by omega)
    have h2 := @List.take_succ _ ((xs.set idx b).set L r) L
    rw [h1, hsw L] at h2
    simpa using h2
  have hperm2 : (r :: ((xs.set idx b).set L r).take L).Perm xs := by
    refine List.Perm.trans ?_ hswperm
    have h3 : (r :: ((xs.set idx b).set L r).take L).Perm
        (((xs.set idx b).set L r).take L ++ [r]) := by
      simpa using (List.perm_append_comm :
        ([r] ++ ((xs.set idx b).set L r).take L).Perm (((xs.set idx b).set L r).take L ++ [r]))
    rw [← hsplit] at h3
    exact h3
  have htl : (((xs.set idx b).set L r).take L).length = L := by
    simp only [List.length_take, hlen1]; omega
  have hmain : ∃ ys, MinHeap.RemoveAt ⟨xs, L + 1⟩ idx = .done r ⟨ys, L⟩ ∧
      ys.Perm (((xs.set idx b).set L r).take L) := by
    by_cases hlast : idx = L
    · have hbr : b = r := by
        rw [hlast, hb] at hr
        exact Option.some.inj hr
      refine ⟨_, ?_, List.Perm.refl _⟩
      simp [MinHeap.RemoveAt, MinHeap.Swap, Outcome.andThen, hr, hb, hlast, hbr]
    · have hidxL : idx < L := by omega
      obtain ⟨el, hel⟩ : ∃ el, (((xs.set idx b).set L r).take L)[idx]? = some el :=
        ⟨_, List.getElem?_eq_getElem (by omega)⟩
      obtain ⟨ys, hys, hpermy⟩ := MinHeap.sinkLoop_perm (L + 1)
        (((xs.set idx b).set L r).take L) L idx (by omega) (by omega)
      have hyl : ys.length = L := by rw [hpermy.length_eq, htl]
      obtain ⟨cur, hcur⟩ : ∃ cur, ys[idx]? = some cur :=
        ⟨_, List.getElem?_eq_getElem (by omega)⟩
      obtain ⟨zs, hzs, hpermz⟩ := MinHeap.Swim_perm ys L idx (by omega)
      by_cases hsame : cur.addr = el.addr
      · refine ⟨zs, ?_, hpermz.trans hpermy⟩
        simp [MinHeap.RemoveAt, MinHeap.Swap, Outcome.andThen, hr, hb, hlast, hel,
          MinHeap.Sink, htl, hys, hcur, hsame, hzs]
      · refine ⟨ys, ?_, hpermy⟩
        simp [MinHeap.RemoveAt, MinHeap.Swap, Outcome.andThen, hr, hb, hlast, hel,
          MinHeap.Sink, htl, hys, hcur, hsame]
  obtain ⟨ys, hys, hpermy⟩ := hmain
  refine ⟨ys, ?_, ?_, (hpermy.cons r).trans hperm2⟩
  · rw [hL]; exact hys
  · rw [hpermy.length_eq, htl, hL]; rfl

theorem zero_mem_pathUp : ∀ (fuel idx : Nat), idx < fuel → 0 ∈ pathUp fuel idx := by
  intro fuel
  induction fuel with
  | zero => intro idx h; omega
  | succ f ih =>
    intro idx h
    by_cases h0 : idx = 0
    · simp [pathUp, h0]
    · simp only [pathUp, h0, if_false, List.mem_cons]
      exact Or.inr (ih _ (by omega))

/-! ## The binary heap: `RemoveAt` -/

/-- C11: `MinHeap.RemoveAt` removes exactly the node at the given index.  For every `MinHeap`
with `Size == len(Heap)` and every `idx < Size`, `RemoveAt(idx)` returns the node that was at
`Heap[idx]`, leaves `Size` one smaller with `Size == len(Heap)`, and the remaining nodes are
the original nodes with one occurrence of the returned node removed. -/
theorem MinHeap.RemoveAt_removes_index (m : MinHeap) (idx : Nat)
    (hsize : m.Size = m.Heap.length) (hidx : idx < m.Size) :
    ∃ r m1, m.RemoveAt idx = .done r m1 ∧ m.Heap[idx]? = some r ∧
      m1.Size + 1 = m.Size ∧ m1.Size = m1.Heap.length ∧ m1.Heap.Perm (m.Heap.erase r) := by
  obtain ⟨xs, sz⟩ := m
  simp only [] at hsize hidx
  subst hsize
  obtain ⟨r, hr⟩ : ∃ r, xs[idx]? = some r := ⟨_, List.getElem?_eq_getElem hidx⟩
  obtain ⟨ys, hys, hlen, hperm⟩ := MinHeap.RemoveAt_spec xs idx r hr
  refine ⟨r, ⟨ys, xs.length - 1⟩, hys, hr, by simp only []; omega, hlen.symm, ?_⟩
  have h := hperm.erase r
  simpa using h

/-- C11 at a concrete heap: the seven-node slice of weights `[1, 10, 2, 11, 12, 3, 4]` and
index 3. -/
theorem MinHeap.RemoveAt_removes_index_witness :
    (7 = (nodesOfWeights [1, 10, 2, 11, 12, 3, 4]).length ∧ 3 < 7) ∧
    ∃ r m1, (MinHeap.mk (nodesOfWeights [1, 10, 2, 11, 12, 3, 4]) 7).RemoveAt 3 = .done r m1 ∧
      (nodesOfWeights [1, 10, 2, 11, 12, 3, 4])[3]? = some r ∧
      m1.Size + 1 = 7 ∧ m1.Size = m1.Heap.length ∧
      m1.Heap.Perm ((nodesOfWeights [1, 10, 2, 11, 12, 3, 4]).erase r) :=
  ⟨by decide, MinHeap.RemoveAt_removes_index
    (MinHeap.mk (nodesOfWeights [1, 10, 2, 11, 12, 3, 4]) 7) 3 (by decide) (by decide)⟩

/-! ## The d-ary heap: `Poll`, `RemoveAt`, `New`, `Contains`, `Size` -/

/-- C12: empty-heap contract.  For every `MinDHeap` with `size == 0`, `Poll()` returns no node
together with the boolean `true`, and the heap (slice, size, degree) is unchanged. -/
theorem MinDHeap.Poll_empty (m : MinDHeap) (h : m.size = 0) :
    m.Poll = .done (none, true) m := by
  simp [MinDHeap.Poll, h]

/-- C12 at the empty heap of degree 2. -/
theorem MinDHeap.Poll_empty_witness :
    (MinDHeap.mk [] 0 2).size = 0 ∧
    (MinDHeap.mk [] 0 2).Poll = .done (none, true) (MinDHeap.mk [] 0 2) :=
  ⟨rfl, MinDHeap.Poll_empty (MinDHeap.mk [] 0 2) rfl⟩

/-- C13 fails on the code: on a one-node heap `Poll()` removes and returns the node with the
boolean `false`, and on the empty heap it returns no node with the boolean `true`; the
boolean is not a `found` flag. -/
theorem MinDHeap.Poll_flag_not_found :
    (MinDHeap.mk [NewNode 0 1 1] 1 2).Poll
      = .done (some (NewNode 0 1 1), false) (MinDHeap.mk [] 0 2) ∧
    (MinDHeap.mk [] 0 2).Poll = .done (none, true) (MinDHeap.mk [] 0 2) := by
  decide

/-- C13 as amended: the boolean returned by `MinDHeap.Poll` is an empty-heap flag.  Whenever
`Poll()` returns, the boolean is `true` exactly when the heap was empty and no node is
returned, and `false` exactly when the heap was non-empty and a node is returned. -/
theorem MinDHeap.Poll_flag_is_empty (m m1 : MinDHeap) (r : Option Node) (b : Bool)
    (h : m.Poll = .done (r, b) m1) :
    (b = true ↔ m.size = 0 ∧ r = none) ∧ (b = false ↔ m.size ≠ 0 ∧ ∃ n, r = some n) := by
  unfold MinDHeap.Poll at h
  split at h
  · rename_i h0
    cases h
    simp [h0]
  · rename_i h0
    obtain ⟨n, m2, _, hk⟩ := Outcome.andThen_done h
    cases hk
    simp [h0]

/-- C13 as amended, at a one-node heap: `Poll()` returns the node with the boolean `false`. -/
theorem MinDHeap.Poll_flag_is_empty_witness :
    (MinDHeap.mk [NewNode 0 1 1] 1 2).Poll
      = .done (some (NewNode 0 1 1), false) (MinDHeap.mk [] 0 2) ∧
    ((false = true ↔ (MinDHeap.mk [NewNode 0 1 1] 1 2).size = 0 ∧
        some (NewNode 0 1 1) = none) ∧
      (false = false ↔ (MinDHeap.mk [NewNode 0 1 1] 1 2).size ≠ 0 ∧
        ∃ n, some (NewNode 0 1 1) = some n)) :=
  ⟨by decide, MinDHeap.Poll_flag_is_empty (MinDHeap.mk [NewNode 0 1 1] 1 2)
    (MinDHeap.mk [] 0 2) (some (NewNode 0 1 1)) false (by decide)⟩

/-- C14, evaluated on the code: on the two-node heap of weights `[1, 2]` (degree 2,
`size == len(heap) == 2`) `RemoveAt(0)`, and with it `Poll()`, raises index out of range
after the swap, the truncation and `size--`: at that moment the slice holds one node and
`size` is 1. -/
theorem MinDHeap.RemoveAt_panic_not_atomic :
    (MinDHeap.mk (nodesOfWeights [1, 2]) 2 2).size = (nodesOfWeights [1, 2]).length ∧
    (MinDHeap.mk (nodesOfWeights [1, 2]) 2 2).RemoveAt 0
      = .indexPanic (MinDHeap.mk (nodesAt [(1, 2)]) 1 2) ∧
    (MinDHeap.mk (nodesOfWeights [1, 2]) 2 2).Poll
      = .indexPanic (MinDHeap.mk (nodesAt [(1, 2)]) 1 2) ∧
    MinDHeap.mk (nodesAt [(1, 2)]) 1 2 ≠ MinDHeap.mk (nodesOfWeights [1, 2]) 2 2 := by
  decide

/-- C15 fails on the code at the degree `2^53 + 1`: `New(9007199254740993)` stores the degree
`9007199254740992`, not `max(2, degree)`. -/
theorem New_degree_float64_rounding :
    New 9007199254740993 [] = .done () (MinDHeap.mk [] 0 9007199254740992) ∧
    (9007199254740992 : Int) ≠ max 2 9007199254740993 := by
  decide

/-- At the greatest `int` the conversions of `New` leave the `int` range: `float64(degree)` is
`2^63`, and `New(9223372036854775807)` stores the least `int`. -/
theorem New_degree_greatest_int :
    New 9223372036854775807 [] = .done () (MinDHeap.mk [] 0 (-9223372036854775808)) := by
  decide

/-- C15 as amended: for every list `elems`, `New(1, elems...)` and `New(0, elems...)` produce
the same result as `New(2, elems...)`, whose degree field is 2; and for every degree up to
`2^53`, `New(degree, elems...)` returns with the degree field `max(2, degree)`. -/
theorem New_degree_clamp (degree : Int) (elems : List Node)
    (h : degree ≤ 9007199254740992) :
    New 1 elems = New 2 elems ∧ New 0 elems = New 2 elems ∧
    (∃ m2, New 2 elems = .done () m2 ∧ m2.deg = 2) ∧
    ∃ m, New degree elems = .done () m ∧ m.deg = max 2 degree := by
  have h1 : intOfFloat64 (max 2 (float64OfInt 1)) = 2 := by decide
  have h0 : intOfFloat64 (max 2 (float64OfInt 0)) = 2 := by decide
  have h2 : intOfFloat64 (max 2 (float64OfInt 2)) = 2 := by decide
  refine ⟨by simp only [New, h1, h2], by simp only [New, h0, h2], ?_, ?_⟩
  · obtain ⟨ys, hys, _⟩ := New_spec 2 elems
    exact ⟨_, hys, h2⟩
  · obtain ⟨ys, hys, _⟩ := New_spec degree elems
    exact ⟨_, hys, clamp_degree degree h⟩

/-- C15 as amended, at degree 5 and the ten scenario nodes. -/
theorem New_degree_clamp_witness :
    (5 : Int) ≤ 9007199254740992 ∧
    (New 1 (nodesOfWeights scenarioWeights) = New 2 (nodesOfWeights scenarioWeights) ∧
      New 0 (nodesOfWeights scenarioWeights) = New 2 (nodesOfWeights scenarioWeights) ∧
      (∃ m2, New 2 (nodesOfWeights scenarioWeights) = .done () m2 ∧ m2.deg = 2) ∧
      ∃ m, New 5 (nodesOfWeights scenarioWeights) = .done () m ∧ m.deg = max 2 5) :=
  ⟨by decide, New_degree_clamp 5 (nodesOfWeights scenarioWeights) (by decide)⟩

/-- C16: `Contains` is membership by payload value.  For every degree, every list `elems` and
every integer `v`, `New(degree, elems...)` returns a heap on which `Contains(v)` is true if
and only if some node of `elems` has `Value == v`. -/
theorem New_Contains_iff (degree : Int) (elems : List Node) (v : Int) :
    ∃ m, New degree elems = .done () m ∧
      (m.Contains v = true ↔ ∃ n ∈ elems, n.Value = v) := by
  obtain ⟨ys, hys, hperm⟩ := New_spec degree elems
  refine ⟨_, hys, ?_⟩
  rw [MinDHeap.Contains_iff]
  constructor
  · rintro ⟨n, hn, hv⟩
    exact ⟨n, hperm.subset hn, hv⟩
  · rintro ⟨n, hn, hv⟩
    exact ⟨n, hperm.symm.subset hn, hv⟩

/-- The scenario of the spec: on the heap built from the ten scenario nodes with degree 2,
`Contains(15)` is true and `Contains(151)` is false. -/
theorem New_Contains_scenario :
    ∃ m, New 2 (nodesOfWeights scenarioWeights) = .done () m ∧
      m.Contains 15 = true ∧ m.Contains 151 = false :=
  ⟨MinDHeap.mk (nodesAt [(7, 13), (5, 9), (4, 7), (3, 5), (0, 10), (2, 30), (6, 11),
    (1, 20), (8, 15), (9, 17)]) 10 2, by decide, by decide, by decide⟩

/-- C17: size consistency on `MinDHeap`.  `New(degree, elems...)` returns with
`Size() == len(elems)`; on a heap with `size == len(heap)` (the empty one included)
`Insert(n)` returns, increases `Size()` by one, keeps `size == len(heap)`, and the slice holds
the old nodes plus `n`; every call of `Poll()` that returns a node and every call of
`RemoveAt` that returns decreases `Size()` by one; `IsEmpty()` holds exactly when
`Size() == 0`. -/
theorem MinDHeap.size_consistency (degree : Int) (elems : List Node) (m : MinDHeap)
    (n : Node) (hsize : m.size = m.heap.length) :
    (∃ m0, New degree elems = .done () m0 ∧ m0.Size = elems.length) ∧
    (∃ m1, m.Insert n = .done () m1 ∧ m1.Size = m.Size + 1 ∧ m1.size = m1.heap.length ∧
      m1.heap.Perm (m.heap ++ [n])) ∧
    (∀ r b m2, m.Poll = .done (some r, b) m2 → m2.Size + 1 = m.Size) ∧
    (∀ idx r m2, m.RemoveAt idx = .done r m2 → m2.Size + 1 = m.Size) ∧
    (m.IsEmpty = true ↔ m.Size = 0) := by
  refine ⟨?_, ?_, ?_, ?_, ?_⟩
  · obtain ⟨ys, hys, _⟩ := New_spec degree elems
    exact ⟨_, hys, rfl⟩
  · obtain ⟨xs, sz, d⟩ := m
    simp only [] at hsize
    subst hsize
    obtain ⟨ys, hys, hperm⟩ := MinDHeap.Insert_spec xs d n
    refine ⟨_, hys, rfl, ?_, hperm⟩
    simpa using hperm.length_eq.symm
  · intro r b m2 h
    exact MinDHeap.Poll_size h
  · intro idx r m2 h
    exact MinDHeap.RemoveAt_size h
  · simp [MinDHeap.IsEmpty, MinDHeap.Size]

/-- C17 at the empty heap of degree 2, the ten scenario nodes and a new node of weight 1;
with a call of `Poll()` that returns a node, on a one-node heap. -/
theorem MinDHeap.size_consistency_witness :
    ((MinDHeap.mk [] 0 2).size = ([] : List Node).length ∧
      (∃ m0, New 2 (nodesOfWeights scenarioWeights) = .done () m0 ∧
        m0.Size = (nodesOfWeights scenarioWeights).length) ∧
      (∃ m1, (MinDHeap.mk [] 0 2).Insert (NewNode 10 1 1) = .done () m1 ∧
        m1.Size = (MinDHeap.mk [] 0 2).Size + 1 ∧ m1.size = m1.heap.length ∧
        m1.heap.Perm ([] ++ [NewNode 10 1 1]))) ∧
    ((MinDHeap.mk [NewNode 0 1 1] 1 2).Poll
        = .done (some (NewNode 0 1 1), false) (MinDHeap.mk [] 0 2) ∧
      (MinDHeap.mk [] 0 2).Size + 1 = (MinDHeap.mk [NewNode 0 1 1] 1 2).Size) :=
  ⟨⟨rfl,
    (MinDHeap.size_consistency 2 (nodesOfWeights scenarioWeights) (MinDHeap.mk [] 0 2)
      (NewNode 10 1 1) rfl).1,
    (MinDHeap.size_consistency 2 (nodesOfWeights scenarioWeights) (MinDHeap.mk [] 0 2)
      (NewNode 10 1 1) rfl).2.1⟩,
   by decide,
    (MinDHeap.size_consistency 2 [] (MinDHeap.mk [NewNode 0 1 1] 1 2) (NewNode 10 1 1)
      rfl).2.2.1 (NewNode 0 1 1) false (MinDHeap.mk [] 0 2) (by decide)⟩

/-! ## The d-ary heap: `Sink` at a leaf, index arithmetic, `Swim` -/

/-- C18, evaluated on the code: in the three-node heap of weights `[1, 2, 3]` (degree 2,
`size == len(heap) == 3`) index 1 is live and its children 3 and 4 lie outside the slice, yet
`Sink(1)` does not return: it reads `heap[3]` and raises index out of range.  The same holds
for `Sink(0)` on a one-node heap. -/
theorem MinDHeap.Sink_leaf_scenario :
    (MinDHeap.mk (nodesOfWeights [1, 2, 3]) 3 2).size = (nodesOfWeights [1, 2, 3]).length ∧
    1 < (MinDHeap.mk (nodesOfWeights [1, 2, 3]) 3 2).size ∧
    (∀ c ∈ (MinDHeap.mk (nodesOfWeights [1, 2, 3]) 3 2).getChildrenIndices 1,
      (MinDHeap.mk (nodesOfWeights [1, 2, 3]) 3 2).size ≤ c) ∧
    (MinDHeap.mk (nodesOfWeights [1, 2, 3]) 3 2).Sink 1
      = .indexPanic (MinDHeap.mk (nodesOfWeights [1, 2, 3]) 3 2) ∧
    (MinDHeap.mk [NewNode 0 1 1] 1 2).Sink 0
      = .indexPanic (MinDHeap.mk [NewNode 0 1 1] 1 2) := by
  decide

/-- C19 fails on the code at degree 2 and index `2^62`: the child `2^62 * 2 + 1` wraps around
to `-9223372036854775807`, and the parent of that child is `-4611686018427387904`, not the
index. -/
theorem MinDHeap.parent_children_wrap :
    (-9223372036854775807 : Int)
      ∈ (MinDHeap.mk [] 0 2).getChildrenIndices 4611686018427387904 ∧
    (MinDHeap.mk [] 0 2).parent (-9223372036854775807) = -4611686018427387904 ∧
    (MinDHeap.mk [] 0 2).parent (-9223372036854775807) ≠ 4611686018427387904 := by
  decide

/-- C19 as amended: index arithmetic of `MinDHeap`.  `parent(i)` is `(i - 1) / 2` with
truncating division whatever the degree, so `parent(0) == 0`; with degree 2 it inverts
`getChildrenIndices` at every index `i` with `0 <= i < 2^62`; with a degree of 3 or more some
child `i*d + k`, `1 <= k <= d`, of some index `i` has a different parent. -/
theorem MinDHeap.parent_index_arithmetic (m : MinDHeap) (idx : Nat) :
    m.parent idx = Int.tdiv ((idx : Int) - 1) 2 ∧
    m.parent 0 = 0 ∧
    (m.deg = 2 → idx < 4611686018427387904 →
      ∀ c ∈ m.getChildrenIndices idx, m.parent c = idx) ∧
    (3 ≤ m.deg → ∃ i k : Int, 0 ≤ i ∧ 1 ≤ k ∧ k ≤ m.deg ∧
      i * m.deg + k ∈ m.getChildrenIndices i ∧ m.parent (i * m.deg + k) ≠ i) := by
  refine ⟨?_, rfl, ?_, ?_⟩
  · have h : ¬ ((idx : Int) - 1 < -9223372036854775808) := by omega
    simp only [MinDHeap.parent, h, if_false]
  · intro hdeg hidx c hc
    unfold MinDHeap.getChildrenIndices at hc
    rw [hdeg] at hc
    obtain ⟨a, ha, rfl⟩ := List.mem_map.1 hc
    have ha2 : a < 2 := by
      have h2 := List.mem_range.1 ha
      simpa using h2
    have hcase : (idx : Int) * 2 + ((a : Int) + 1) < 9223372036854775808 ∨
        (idx = 4611686018427387903 ∧ a = 1) := by omega
    rcases hcase with hsmall | ⟨hi, ha1⟩
    · have hw : wrapInt ((idx : Int) * 2 + ((a : Int) + 1))
          = (idx : Int) * 2 + ((a : Int) + 1) := by
        unfold wrapInt
        omega
      rw [hw]
      have h : ¬ ((idx : Int) * 2 + ((a : Int) + 1) - 1 < -9223372036854775808) := by omega
      simp only [MinDHeap.parent, h, if_false]
      rw [Int.tdiv_eq_ediv (by omega) (by omega)]
      omega
    · -- the second child of `2^62 - 1` is `2^63`: it wraps to the least `int`, whose
      -- predecessor wraps back to the greatest
      subst hi ha1
      unfold MinDHeap.parent
      decide
  · intro hdeg
    have h3 : (0 : Int) * m.deg + 3 = 3 := by rw [Int.zero_mul]; rfl
    have hw : wrapInt (0 * m.deg + (((2 : Nat) : Int) + 1)) = 0 * m.deg + 3 := by
      rw [h3, Int.zero_mul]
      decide
    have hdn : 2 < m.deg.toNat := by omega
    refine ⟨0, 3, Int.le_refl 0, by decide, hdeg, ?_, ?_⟩
    · unfold MinDHeap.getChildrenIndices
      exact List.mem_map.2 ⟨2, List.mem_range.2 hdn, hw⟩
    · rw [h3]
      unfold MinDHeap.parent
      decide

/-- C19 as amended, at degree 2 (index 5, children 11 and 12) and at degree 3 (child 3 of
index 0 has parent 1). -/
theorem MinDHeap.parent_index_arithmetic_witness :
    ((MinDHeap.mk [] 0 2).deg = 2 ∧ 5 < 4611686018427387904 ∧
      ∀ c ∈ (MinDHeap.mk [] 0 2).getChildrenIndices ((5 : Nat) : Int),
        (MinDHeap.mk [] 0 2).parent c = ((5 : Nat) : Int)) ∧
    (3 ≤ (MinDHeap.mk [] 0 3).deg ∧
      ∃ i k : Int, 0 ≤ i ∧ 1 ≤ k ∧ k ≤ (MinDHeap.mk [] 0 3).deg ∧
        i * (MinDHeap.mk [] 0 3).deg + k ∈ (MinDHeap.mk [] 0 3).getChildrenIndices i ∧
        (MinDHeap.mk [] 0 3).parent (i * (MinDHeap.mk [] 0 3).deg + k) ≠ i) :=
  ⟨⟨rfl, by decide,
    (MinDHeap.parent_index_arithmetic (MinDHeap.mk [] 0 2) 5).2.2.1 rfl (by decide)⟩,
   ⟨by decide, (MinDHeap.parent_index_arithmetic (MinDHeap.mk [] 0 3) 0).2.2.2 (by decide)⟩⟩

/-- C20: what `MinDHeap.Swim` does.  On a heap with `size == len(heap)` and a live index
`idx`, `Swim(idx)` returns.  Either the node of `idx` is not strictly lighter than the node of
`(idx - 1) / 2` and the heap is unchanged; or it is strictly lighter, and then it ends at
index 0, every other index on the path `idx, parent(idx), .., 0` holds the node that was at
its parent, and every index off the path keeps its node; `size` and `deg` are kept. -/
theorem MinDHeap.Swim_moves_to_root (m : MinDHeap) (idx : Nat)
    (hsize : m.size = m.heap.length) (hidx : idx < m.size) :
    ∃ e p, m.heap[idx]? = some e ∧ m.heap[(idx - 1) / 2]? = some p ∧
      ((¬ e.Weight < p.Weight ∧ m.Swim idx = .done () m) ∨
       (e.Weight < p.Weight ∧ ∃ ys, m.Swim idx = .done () { m with heap := ys } ∧
          ys.length = m.heap.length ∧ ys[0]? = some e ∧
          (∀ k, k ≠ 0 → k ∈ pathToRoot idx → ys[k]? = m.heap[(k - 1) / 2]?) ∧
          (∀ k, k ∉ pathToRoot idx → ys[k]? = m.heap[k]?))) := by
  obtain ⟨xs, sz, d⟩ := m
  simp only [] at hsize hidx
  subst hsize
  obtain ⟨e, he⟩ : ∃ e, xs[idx]? = some e := ⟨_, List.getElem?_eq_getElem hidx⟩
  obtain ⟨p, hp⟩ : ∃ p, xs[(idx - 1) / 2]? = some p :=
    ⟨_, List.getElem?_eq_getElem (by omega)⟩
  have hspec := MinDHeap.Swim_spec xs xs.length d idx e p he hp
  refine ⟨e, p, he, hp, ?_⟩
  by_cases hlt : e.Weight < p.Weight
  · obtain ⟨ys, hys, hperm, hget⟩ := hspec.2 hlt
    refine Or.inr ⟨hlt, ys, hys, hperm.length_eq, ?_, ?_, ?_⟩
    · simpa using hget 0
    · intro k hk0 hk
      rw [hget k]
      simp only [hk0, hk, if_false, if_true]
    · intro k hk
      have hk0 : k ≠ 0 := by
        intro h0
        exact hk (h0 ▸ zero_mem_pathUp (idx + 1) idx (by omega))
      rw [hget k]
      simp only [hk0, hk, if_false]
  · exact Or.inl ⟨hlt, hspec.1 hlt⟩

/-- C20 at the four-node slice of weights `[1, 5, 3, 4]` and index 3: the node of weight 4 is
lighter than its parent of weight 5 and ends at index 0, past the root of weight 1. -/
theorem MinDHeap.Swim_moves_to_root_witness :
    ((MinDHeap.mk (nodesOfWeights [1, 5, 3, 4]) 4 2).size
        = (nodesOfWeights [1, 5, 3, 4]).length ∧
      3 < (MinDHeap.mk (nodesOfWeights [1, 5, 3, 4]) 4 2).size) ∧
    (MinDHeap.mk (nodesOfWeights [1, 5, 3, 4]) 4 2).Swim 3
      = .done () (MinDHeap.mk (nodesAt [(3, 4), (0, 1), (2, 3), (1, 5)]) 4 2) ∧
    ∃ e p, (nodesOfWeights [1, 5, 3, 4])[3]? = some e ∧
      (nodesOfWeights [1, 5, 3, 4])[(3 - 1) / 2]? = some p ∧
      ((¬ e.Weight < p.Weight ∧ (MinDHeap.mk (nodesOfWeights [1, 5, 3, 4]) 4 2).Swim 3
          = .done () (MinDHeap.mk (nodesOfWeights [1, 5, 3, 4]) 4 2)) ∨
       (e.Weight < p.Weight ∧ ∃ ys, (MinDHeap.mk (nodesOfWeights [1, 5, 3, 4]) 4 2).Swim 3
            = .done () { (MinDHeap.mk (nodesOfWeights [1, 5, 3, 4]) 4 2) with heap := ys } ∧
          ys.length = (nodesOfWeights [1, 5, 3, 4]).length ∧ ys[0]? = some e ∧
          (∀ k, k ≠ 0 → k ∈ pathToRoot 3 →
            ys[k]? = (nodesOfWeights [1, 5, 3, 4])[(k - 1) / 2]?) ∧
          (∀ k, k ∉ pathToRoot 3 → ys[k]? = (nodesOfWeights [1, 5, 3, 4])[k]?))) :=
  ⟨by decide, by decide,
    MinDHeap.Swim_moves_to_root (MinDHeap.mk (nodesOfWeights [1, 5, 3, 4]) 4 2) 3
      (by decide) (by decide)⟩

end Heap
